import Mathlib

/-!
csvsource (gogetsql): CSV to SQL insert statements.

A shallow embedding of `gogetsql.go` and `utils/string.go`.

A Go `string` is modelled as the list of its bytes.  `Char` is used as the
byte type so that literals stay readable: every byte value is a `Char`, and a
text that is not ASCII is the list of its UTF-8 bytes.  `len` is `List.length`.
Go `int` counters are `Int`; none of them can exceed the number of rows read,
so machine overflow plays no role.  A Go run-time panic (index out of range)
is the value `none`.

The engine of `readCSVFile` is given twice.  `loopBody`, `afterLoop` and `readCSVFile`
record each statement by the batch handed to `createInsertStatement` and leave the call
unevaluated: they give the writes of a run in which no call panics.  `loopBodyExec`,
`afterLoopExec` and `readCSVFileExec` evaluate the call where the source does, so that a
panic ends the run; `runExec_sound` relates the two.
-/

namespace Gogetsql

/-- Go `string`: a sequence of bytes. -/
abbrev Str := List Char

/-- The single-quote byte (0x27). -/
def quote : Char := Char.ofNat 39

/-! ## Package `strings` (standard library functions used by the program) -/

/-- Scan of `strings.Index`: `i` is the byte offset of the suffix being examined. -/
def indexFrom (sep : Str) : Str → Nat → Int
  | [], i => if sep.isPrefixOf [] then (i : Int) else -1
  | c :: t, i => if sep.isPrefixOf (c :: t) then (i : Int) else indexFrom sep t (i + 1)

/-- Model of `strings.Index(s, sep)`: the offset of the first occurrence of `sep` in `s`,
or `-1` when there is none. -/
def Index (s sep : Str) : Int := indexFrom sep s 0

/-- Model of `strings.Contains(s, substr)`, which is `Index(s, substr) >= 0`. -/
def Contains (s substr : Str) : Bool := decide (Index s substr ≥ 0)

/-- Scan of `strings.ReplaceAll` for a non-empty `old`: `skip` counts the bytes of a matched
occurrence that are still to be passed over (matches do not overlap). -/
def replaceFrom (old new : Str) : Nat → Str → Str
  | _, [] => []
  | skip + 1, _ :: t => replaceFrom old new skip t
  | 0, c :: t =>
    if old.isPrefixOf (c :: t) then new ++ replaceFrom old new (old.length - 1) t
    else c :: replaceFrom old new 0 t

/-- Model of `strings.ReplaceAll(s, old, new)`: every non-overlapping occurrence of `old`,
found from left to right, is replaced by `new`.  For an empty `old` Go inserts `new` before
every character and at the end (a branch the program never takes). -/
def ReplaceAll (s old new : Str) : Str :=
  if old = [] then new ++ s.flatMap (fun c => c :: new) else replaceFrom old new 0 s

/-- Go slice expression `v[lo:hi]` for `0 ≤ lo ≤ hi ≤ len(v)`, the only way it is used. -/
def slice (v : Str) (lo hi : Int) : Str := (v.drop lo.toNat).take (hi.toNat - lo.toNat)

/-! ## `utils/string.go` -/

/-- Model of `utils.Between`. -/
def Between (value left right : Str) : Str :=
  let posLeft := Index value left
  if posLeft = -1 then []
  else
    let posRight := Index value right
    if posRight = -1 then []
    else
      let posAfterLeft := posLeft + (left.length : Int)
      if posAfterLeft ≥ posRight then []
      else slice value posAfterLeft posRight

/-- Model of `utils.Before`. -/
def Before (value right : Str) : Str :=
  let posRight := Index value right
  if posRight = -1 then []
  else slice value 0 posRight

/-! ## `gogetsql.go` -/

/-- Model of `sanitize`. -/
def sanitize (str : Str) : Str := ReplaceAll str [quote] [quote, quote]

/-- Model of `processColumns`: entry `i` of the result is computed from entry `i` of
`columns` (the Go loop writes `processed[i]` from `col = columns[i]`). -/
def processColumns (columns : List Str) : List (List Str) :=
  columns.map fun col =>
    if Contains col "(".toList then [Before col "(".toList, Between col "(".toList ")".toList]
    else [col, "text".toList]

/-- Model of `type record struct { values []string }`. -/
structure record where
  values : List Str
deriving DecidableEq

/-- First loop of `createInsertStatement` (`for _, col := range columns`): appends
`comma + " " + col[0]` for each column; `col[0]` panics on an empty column entry. -/
def columnsLoop : List (List Str) → Str → Str → Option Str
  | [], insert, _ => some insert
  | col :: rest, insert, comma => do
    let name ← col[0]?
    columnsLoop rest (insert ++ comma ++ " ".toList ++ name) ",".toList

/-- Inner loop of `createInsertStatement` (`for j, column := range columns`) for one record:
`column[1]` and `record.values[j]` panic when out of range. -/
def valuesLoop (values : List Str) : List (List Str) → Nat → Str → Str → Option Str
  | [], _, insert, _ => some insert
  | column :: rest, j, insert, comma => do
    let kind ← column[1]?
    let v ← values[j]?
    let insert :=
      if kind = "text".toList then insert ++ comma ++ " ".toList ++ [quote] ++ sanitize v ++ [quote]
      else insert ++ comma ++ " ".toList ++ v
    valuesLoop values rest (j + 1) insert ",".toList

/-- Outer loop of `createInsertStatement` (`for i, record := range records`); `n` is
`len(records)` and `i` the index of the record at the head of the list. -/
def recordsLoop (columns : List (List Str)) (n : Nat) : List record → Nat → Str → Option Str
  | [], _, insert => some insert
  | r :: rest, i, insert => do
    let insert ← valuesLoop r.values columns 0 (insert ++ "  (".toList) []
    let insert := if (i : Int) < (n : Int) - 1 then insert ++ "),\n".toList else insert
    recordsLoop columns n rest (i + 1) insert

/-- Model of `createInsertStatement`; `fmt.Sprintf` with `%s` verbs is concatenation. -/
def createInsertStatement (records : List record) (table : Str) (columns : List (List Str)) :
    Option Str :=
  if records.length = 0 then some []
  else do
    let insert := "insert into".toList
    let insert := insert ++ " ".toList ++ table ++ " (".toList
    let insert ← columnsLoop columns insert []
    let insert := insert ++ ") values \n".toList
    let insert ← recordsLoop columns records.length records 0 insert
    some (insert ++ ");\n".toList)

/-- One call of `wSQLFile.WriteString` made by the engine of `readCSVFile`: either a literal
marker, or the statement `createInsertStatement(insertChunk, table, processedColumns)`,
recorded with the batch that is handed to `createInsertStatement`. -/
inductive Write where
  | text (s : Str)
  | insert (batch : List record)
deriving DecidableEq

/-- The mutable variables of the read loop of `readCSVFile`, and the calls of
`WriteString` made so far (oldest first). -/
structure Engine where
  chunkCount : Int
  insertChunkCount : Int
  insertChunk : List record
  written : List Write

/-- State of the engine before the first row: both counters `0`, `insertChunk` nil. -/
def Engine.init : Engine :=
  { chunkCount := 0, insertChunkCount := 0, insertChunk := [], written := [] }

/-- Body of the `for` loop of `readCSVFile` for one successfully read `entry`
(`wSQLFile.Flush()` does not change what is written), with the call of
`createInsertStatement` left unevaluated: the statement is recorded as `Write.insert` with
its batch and the loop goes on.  This is what the loop does as long as the call returns;
the panic of the call, which ends the run, is modelled in `loopBodyExec`. -/
def loopBody (flagInsertChunkSize flagChunkSize : Int) (st : Engine) (entry : List Str) :
    Engine :=
  let st :=
    if st.insertChunkCount < flagInsertChunkSize then
      let insertChunk := st.insertChunk ++ [{ values := entry }]
      let insertChunkCount := st.insertChunkCount + 1
      if insertChunkCount = flagInsertChunkSize then
        let written :=
          if flagChunkSize > 0 ∧ st.chunkCount = 0 then
            st.written ++ [Write.text "begin transaction;\n".toList]
          else st.written
        { chunkCount := st.chunkCount + 1
          insertChunkCount := 0
          insertChunk := []
          written := written ++ [Write.insert insertChunk] }
      else
        { st with insertChunk := insertChunk, insertChunkCount := insertChunkCount }
    else st
  if flagChunkSize > 0 ∧ st.chunkCount = flagChunkSize then
    { st with written := st.written ++ [Write.text "commit transaction;\n\n".toList]
              chunkCount := 0 }
  else st

/-- The code of `readCSVFile` after the loop and before the suffix is attached, with the call
of `createInsertStatement` left unevaluated (see `loopBody`); the panic of the call is
modelled in `afterLoopExec`. -/
def afterLoop (flagChunkSize : Int) (st : Engine) : List Write :=
  let written :=
    if flagChunkSize > 0 ∧ st.chunkCount > 0 then
      st.written ++ [Write.text "commit transaction;\n".toList]
    else st.written
  if st.insertChunk.length > 0 then
    let written :=
      if flagChunkSize > 0 then written ++ [Write.text "\nbegin transaction;".toList]
      else written
    let written := written ++ [Write.insert st.insertChunk]
    if flagChunkSize > 0 then written ++ [Write.text "\ncommit transaction;\n".toList]
    else written
  else written

/-- State of the engine when the reader reports end of input after `rows`. -/
def runLoop (flagInsertChunkSize flagChunkSize : Int) (rows : List (List Str)) : Engine :=
  rows.foldl (loopBody flagInsertChunkSize flagChunkSize) Engine.init

/-- The engine of `readCSVFile` (the read loop and the code after it) with the calls of
`createInsertStatement` left unevaluated: the calls of `WriteString` it makes between the
prefix and the suffix, in order, when the reader delivers `rows` and then end of input and
no call of `createInsertStatement` panics.  A run in which a call panics makes a prefix of
these writes (`readCSVFileExec`, `readCSVFileExec_panicked`). -/
def readCSVFile (flagInsertChunkSize flagChunkSize : Int) (rows : List (List Str)) :
    List Write :=
  afterLoop flagChunkSize (runLoop flagInsertChunkSize flagChunkSize rows)

/-- The text of one `WriteString` call; a panic of `createInsertStatement` is `none`. -/
def Write.render (table : Str) (columns : List (List Str)) : Write → Option Str
  | Write.text s => some s
  | Write.insert batch => createInsertStatement batch table columns

/-- The text that a sequence of `WriteString` calls appends to the output stream. -/
def sqlText (table : Str) (columns : List (List Str)) : List Write → Option Str
  | [] => some []
  | w :: ws => do
    let s ← w.render table columns
    let rest ← sqlText table columns ws
    some (s ++ rest)

/-- The batches handed to `createInsertStatement`, in the order of the calls. -/
def batches : List Write → List (List record)
  | [] => []
  | Write.text _ :: ws => batches ws
  | Write.insert b :: ws => b :: batches ws

/-- The literal markers written, in order. -/
def markers : List Write → List Str
  | [] => []
  | Write.text s :: ws => s :: markers ws
  | Write.insert _ :: ws => markers ws

/-! ### The engine with `createInsertStatement` evaluated in place

In `readCSVFile` the argument of `wSQLFile.WriteString(createInsertStatement(...))` is
evaluated where it stands (lines 108 and 132).  When `createInsertStatement` panics the
run ends there: the markers written before the call stay written, the statement and
everything after it are never written. -/

/-- How a run of the engine ends: it reaches the suffix after the calls `written` of
`WriteString`, or `createInsertStatement` panics on `batch` after the calls `written`. -/
inductive Outcome where
  | finished (written : List Write)
  | panicked (written : List Write) (batch : List record)
deriving DecidableEq

/-- Result of one iteration of the read loop: the next state, or the panic that ends the
run. -/
inductive Step where
  | next (st : Engine)
  | abort (written : List Write) (batch : List record)

/-- The calls of `WriteString` made in a run, whichever way it ends. -/
def Outcome.written : Outcome → List Write
  | Outcome.finished w => w
  | Outcome.panicked w _ => w

/-- The batches handed to `createInsertStatement` in a run, in the order of the calls: those
of the statements written and, when the run ends in a panic, the batch of the panicking
call. -/
def Outcome.handed : Outcome → List (List record)
  | Outcome.finished w => batches w
  | Outcome.panicked w b => batches w ++ [b]

/-- The commit check that ends every iteration of the read loop (lines 115-118). -/
def commitCheck (flagChunkSize : Int) (st : Engine) : Engine :=
  if flagChunkSize > 0 ∧ st.chunkCount = flagChunkSize then
    { st with written := st.written ++ [Write.text "commit transaction;\n\n".toList]
              chunkCount := 0 }
  else st

/-- The first part of the loop body (lines 97-113) with the call of `createInsertStatement`
left unevaluated, as in `loopBody`. -/
def appendEntry (flagInsertChunkSize flagChunkSize : Int) (st : Engine) (entry : List Str) :
    Engine :=
  if st.insertChunkCount < flagInsertChunkSize then
    let insertChunk := st.insertChunk ++ [{ values := entry }]
    let insertChunkCount := st.insertChunkCount + 1
    if insertChunkCount = flagInsertChunkSize then
      let written :=
        if flagChunkSize > 0 ∧ st.chunkCount = 0 then
          st.written ++ [Write.text "begin transaction;\n".toList]
        else st.written
      { chunkCount := st.chunkCount + 1
        insertChunkCount := 0
        insertChunk := []
        written := written ++ [Write.insert insertChunk] }
    else
      { st with insertChunk := insertChunk, insertChunkCount := insertChunkCount }
  else st

/-- Body of the `for` loop of `readCSVFile` for one successfully read `entry`, with
`createInsertStatement` evaluated in place (line 108): the `begin transaction;` marker is
written before the call, and a panic of the call ends the run. -/
def loopBodyExec (table : Str) (columns : List (List Str))
    (flagInsertChunkSize flagChunkSize : Int) (st : Engine) (entry : List Str) : Step :=
  if st.insertChunkCount < flagInsertChunkSize then
    let insertChunk := st.insertChunk ++ [{ values := entry }]
    let insertChunkCount := st.insertChunkCount + 1
    if insertChunkCount = flagInsertChunkSize then
      let written :=
        if flagChunkSize > 0 ∧ st.chunkCount = 0 then
          st.written ++ [Write.text "begin transaction;\n".toList]
        else st.written
      match createInsertStatement insertChunk table columns with
      | none => Step.abort written insertChunk
      | some _ =>
        Step.next (commitCheck flagChunkSize
          { chunkCount := st.chunkCount + 1
            insertChunkCount := 0
            insertChunk := []
            written := written ++ [Write.insert insertChunk] })
    else
      Step.next (commitCheck flagChunkSize
        { st with insertChunk := insertChunk, insertChunkCount := insertChunkCount })
  else Step.next (commitCheck flagChunkSize st)

/-- The code of `readCSVFile` after the loop and before the suffix is attached, with
`createInsertStatement` evaluated in place (line 132): the begin marker of the partial
batch is written before the call, its commit marker only when the call returns. -/
def afterLoopExec (table : Str) (columns : List (List Str)) (flagChunkSize : Int)
    (st : Engine) : Outcome :=
  let written :=
    if flagChunkSize > 0 ∧ st.chunkCount > 0 then
      st.written ++ [Write.text "commit transaction;\n".toList]
    else st.written
  if st.insertChunk.length > 0 then
    let written :=
      if flagChunkSize > 0 then written ++ [Write.text "\nbegin transaction;".toList]
      else written
    match createInsertStatement st.insertChunk table columns with
    | none => Outcome.panicked written st.insertChunk
    | some _ =>
      let written := written ++ [Write.insert st.insertChunk]
      Outcome.finished
        (if flagChunkSize > 0 then written ++ [Write.text "\ncommit transaction;\n".toList]
         else written)
  else Outcome.finished written

/-- The read loop from the state `st` on the rows still to be read, then the code after
the loop; the run ends at the first panic. -/
def runExec (table : Str) (columns : List (List Str))
    (flagInsertChunkSize flagChunkSize : Int) : Engine → List (List Str) → Outcome
  | st, [] => afterLoopExec table columns flagChunkSize st
  | st, entry :: rest =>
    match loopBodyExec table columns flagInsertChunkSize flagChunkSize st entry with
    | Step.abort written batch => Outcome.panicked written batch
    | Step.next st2 => runExec table columns flagInsertChunkSize flagChunkSize st2 rest

/-- The engine of `readCSVFile` (lines 69-137) as it runs: the outcome when the reader
delivers `rows` and then end of input. -/
def readCSVFileExec (table : Str) (columns : List (List Str))
    (flagInsertChunkSize flagChunkSize : Int) (rows : List (List Str)) : Outcome :=
  runExec table columns flagInsertChunkSize flagChunkSize Engine.init rows

/-! ## `figureOutTableName` and `figureOutSQLFilePath`

The regular expression of `figureOutTableName` is
`[^0-9A-Za-z_]*([a-zA-Z_][a-zA-Z0-9_]*).[csvCSV]{3}$`.  Package `regexp` reads its input
rune by rune, returns the match that begins leftmost and, among those, the one a
backtracking search finds first (greedy repetitions try the longest repetition first).  The
functions below are that search for this expression; the path is the list of its runes
(for an ASCII path, the list of its bytes). -/

/-- The line feed, the one rune that `.` does not match. -/
def lineFeed : Char := Char.ofNat 10

/-- The class `[0-9A-Za-z_]`. -/
def isWordChar (c : Char) : Bool :=
  (48 ≤ c.toNat && c.toNat ≤ 57) || (65 ≤ c.toNat && c.toNat ≤ 90) ||
    (97 ≤ c.toNat && c.toNat ≤ 122) || c == '_'

/-- The class `[a-zA-Z_]`. -/
def isIdentStart (c : Char) : Bool :=
  (97 ≤ c.toNat && c.toNat ≤ 122) || (65 ≤ c.toNat && c.toNat ≤ 90) || c == '_'

/-- The class `[csvCSV]`. -/
def isCsvChar (c : Char) : Bool :=
  c == 'c' || c == 's' || c == 'v' || c == 'C' || c == 'S' || c == 'V'

/-- Whether the text is matched by `.[csvCSV]{3}$`: any rune but a line feed, three runes of
`[csvCSV]`, and then the end of the text. -/
def matchExtension : Str → Bool
  | [a, b, c, d] => a != lineFeed && isCsvChar b && isCsvChar c && isCsvChar d
  | _ => false

/-- Search for `[a-zA-Z0-9_]*.[csvCSV]{3}$` inside the group: the greedy repetition takes the
next rune when it can and gives it back when the rest does not match; `acc` is the text of
the group so far, and the result is the text of the group. -/
def matchIdentRest (acc : Str) : Str → Option Str
  | [] => if matchExtension [] then some acc else none
  | c :: t =>
    if isWordChar c then
      match matchIdentRest (acc ++ [c]) t with
      | some g => some g
      | none => if matchExtension (c :: t) then some acc else none
    else if matchExtension (c :: t) then some acc else none

/-- Search for `([a-zA-Z_][a-zA-Z0-9_]*).[csvCSV]{3}$`; the result is the text of the
group. -/
def matchGroup : Str → Option Str
  | [] => none
  | c :: t => if isIdentStart c then matchIdentRest [c] t else none

/-- Search for the whole expression at one start position: the greedy `[^0-9A-Za-z_]*` takes
the next rune when it can and gives it back when the rest does not match. -/
def matchNonword : Str → Option Str
  | [] => matchGroup []
  | c :: t =>
    if !isWordChar c then
      match matchNonword t with
      | some g => some g
      | none => matchGroup (c :: t)
    else matchGroup (c :: t)

/-- Model of `re.FindStringSubmatch(s)` for the expression above: `nil` when there is no
match, otherwise the text of the leftmost match (which ends at the end of `s`) and the text
of its group. -/
def FindStringSubmatch : Str → List Str
  | [] =>
    match matchNonword [] with
    | some g => [[], g]
    | none => []
  | c :: t =>
    match matchNonword (c :: t) with
    | some g => [c :: t, g]
    | none => FindStringSubmatch t

/-- Model of `figureOutTableName`. -/
def figureOutTableName (flagTable flagCSVFile : Str) : Str :=
  if flagTable.length = 0 then
    let m := FindStringSubmatch flagCSVFile
    if h : m.length > 1 then m[1]
    else "unnamed".toList
  else flagTable

/-- Model of `figureOutSQLFilePath`. -/
def figureOutSQLFilePath (tableName flagSQLFile : Str) : Str :=
  if flagSQLFile.length = 0 then tableName ++ ".sql".toList
  else flagSQLFile

/-! ## Spec-side definitions -/

/-- One character of the sanitizer's output as the spec words it: a single quote becomes two,
any other character stays. -/
def escapeChar (c : Char) : Str := if c = quote then [quote, quote] else [c]

/-- Spec reading of the kind of a header token: the text strictly between the first `(` and
the first `)` that occurs after that `(` (empty when there is no such `)`). -/
def specKind (token : Str) : Str :=
  let afterOpen := (token.dropWhile (fun c => c != '(')).drop 1
  if ')' ∈ afterOpen then afterOpen.takeWhile (fun c => c != ')') else []

/-- A column spec `(name, kind)` in the representation `createInsertStatement` receives:
the two-element slice built by `processColumns`. -/
def specEntry (c : Str × Str) : List Str := [c.1, c.2]

/-- Rendering of one field as the spec words it: quoted and sanitized when the kind of its
column is `text`, verbatim otherwise. -/
def renderValue (kind v : Str) : Str :=
  if kind = "text".toList then [quote] ++ sanitize v ++ [quote] else v

/-- The statement shape of the spec, with the text `opening` written for each opening
parenthesis: the column names joined by `", "`, one line per row holding the rendered
values joined by `", "`, rows joined by a comma and a newline, a semicolon and a newline
after the last row. -/
def statementShape (opening table : Str) (columns : List (Str × Str))
    (batch : List (List Str)) : Str :=
  "insert into ".toList ++ table ++ " ".toList ++ opening ++
    List.intercalate ", ".toList (columns.map Prod.fst) ++ ") values \n".toList ++
    List.intercalate ",\n".toList (batch.map fun row =>
      "  ".toList ++ opening ++
        List.intercalate ", ".toList (List.zipWith renderValue (columns.map Prod.snd) row) ++
        ")".toList) ++
    ";\n".toList

/-- A transaction group as it is written: an opening marker, the statements of its
batches, a closing marker. -/
structure Group where
  opening : Str
  stmts : List (List record)
  closing : Str

/-- The `WriteString` calls that make up one transaction group. -/
def Group.writes (g : Group) : List Write :=
  Write.text g.opening :: (g.stmts.map Write.insert ++ [Write.text g.closing])

/-- The two `begin transaction` markers of the engine. -/
def isBegin (m : Str) : Prop :=
  m = "begin transaction;\n".toList ∨ m = "\nbegin transaction;".toList

/-- The three `commit transaction` markers of the engine. -/
def isCommit (m : Str) : Prop :=
  m = "commit transaction;\n\n".toList ∨ m = "commit transaction;\n".toList ∨
    m = "\ncommit transaction;\n".toList

/-- Concatenation of the statements of a list of batches, in order; `none` when
`createInsertStatement` panics on one of them. -/
def concatStatements (table : Str) (columns : List (List Str)) :
    List (List record) → Option Str
  | [] => some []
  | b :: bs => do
    let s ← createInsertStatement b table columns
    let rest ← concatStatements table columns bs
    some (s ++ rest)

/-- Invariant of the read loop on the batching side, after the rows `rows` have been
read with insert-chunk-size `s`. -/
def BatchInv (s : Int) (st : Engine) (rows : List (List Str)) : Prop :=
  st.insertChunkCount = (st.insertChunk.length : Int) ∧
  (st.insertChunk.length : Int) < s ∧
  (∀ b ∈ batches st.written, (b.length : Int) = s) ∧
  ((batches st.written).flatten ++ st.insertChunk).map record.values = rows

/-- The writes of a transaction that has been opened and not yet committed. -/
def openWrites (pending : List (List record)) : List Write :=
  if pending = [] then []
  else Write.text "begin transaction;\n".toList :: pending.map Write.insert

/-- Invariant of the read loop on the transaction side for chunk-size `c > 0`: the writes
so far are the committed groups `gs`, each of exactly `c` statements, followed by the
statements `pending` of the open transaction, and `chunkCount` counts the latter. -/
def GroupInv (c : Int) (st : Engine) (gs : List Group) (pending : List (List record)) : Prop :=
  st.written = gs.flatMap Group.writes ++ openWrites pending ∧
  st.chunkCount = (pending.length : Int) ∧
  (pending.length : Int) < c ∧
  ∀ g ∈ gs, g.opening = "begin transaction;\n".toList ∧
    g.closing = "commit transaction;\n\n".toList ∧ (g.stmts.length : Int) = c

/-- The group that the code after the loop closes when a transaction is still open. -/
def closeOpen (pending : List (List record)) : List Group :=
  if pending = [] then []
  else [{ opening := "begin transaction;\n".toList, stmts := pending,
          closing := "commit transaction;\n".toList }]

/-- The group that the code after the loop writes for a trailing partial batch. -/
def tailGroup (partialBatch : List record) : List Group :=
  if partialBatch = [] then []
  else [{ opening := "\nbegin transaction;".toList, stmts := [partialBatch],
          closing := "\ncommit transaction;\n".toList }]

/-- Five one-field rows `1 .. 5`, used to run the engine on a concrete input. -/
def fiveRows : List (List Str) :=
  [["1".toList], ["2".toList], ["3".toList], ["4".toList], ["5".toList]]

/-- The items one loop of `createInsertStatement` appends: `comma`, a space and the first
item, then a comma, a space and the item for each further one. -/
def itemsText (comma : Str) : List Str → Str
  | [] => []
  | v :: vs => comma ++ " ".toList ++ v ++ vs.flatMap (fun y => ", ".toList ++ y)

/-- The text the outer loop of `createInsertStatement` appends for rows whose rendered
values are given: each row opened by two spaces and `(`, rows separated by `),` and a
newline. -/
def rowsText : List (List Str) → Str
  | [] => []
  | [r] => "  (".toList ++ itemsText [] r
  | r :: r2 :: rest => "  (".toList ++ itemsText [] r ++ "),\n".toList ++ rowsText (r2 :: rest)

/-- A row in which the field of every column is replaced by its rendering for the kind of
that column (`renderValue`); fields beyond the columns are kept. -/
def renderRow (cols : List (Str × Str)) (row : List Str) : List Str :=
  List.zipWith renderValue (cols.map Prod.snd) row ++ row.drop cols.length

/-- An identifier as the spec words it: a letter or underscore followed by letters, digits
or underscores. -/
def isIdentifier : Str → Bool
  | [] => false
  | c :: t => isIdentStart c && t.all isWordChar

/-- The text `p` contains `sep` only at its end. -/
def OnlyAtEnd (sep p : Str) : Prop := ∀ a b : Str, p = a ++ sep ++ b → b = []

/-- The first occurrence of `sep` in `value` comes right after the prefix `x`. -/
def FirstOccurrence (sep x value : Str) : Prop :=
  (∃ rest, value = x ++ sep ++ rest) ∧ OnlyAtEnd sep (x ++ sep)

/-- Lengths of the maximal runs of consecutive single quotes of a text, in order; `cur` is
the length of the run that is being read. -/
def quoteRunsFrom (cur : Nat) : Str → List Nat
  | [] => if cur = 0 then [] else [cur]
  | c :: t =>
    if c = quote then quoteRunsFrom (cur + 1) t
    else if cur = 0 then quoteRunsFrom 0 t
    else cur :: quoteRunsFrom 0 t

/-- Lengths of the maximal runs of consecutive single quotes of a text. -/
def quoteRuns (s : Str) : List Nat := quoteRunsFrom 0 s

/-- Collapsing each pair of single quotes back to one single quote, from left to right. -/
def collapseQuotes (s : Str) : Str := ReplaceAll s [quote, quote] [quote]

/-! ## Facts about the `strings` functions -/

theorem isPrefixOf_single (ch c : Char) (t : Str) : [ch].isPrefixOf (c :: t) = (ch == c) := by
  simp [List.isPrefixOf]

theorem indexFrom_not_mem (ch : Char) (s : Str) (i : Nat) (h : ch ∉ s) :
    indexFrom [ch] s i = -1 := by
  induction s generalizing i with
  | nil => simp [indexFrom, List.isPrefixOf]
  | cons c t ih =>
    have hc : ch ≠ c := fun e => h (by simp [e])
    have ht : ch ∉ t := fun e => h (by simp [e])
    simp [indexFrom, isPrefixOf_single, hc, ih _ ht]

theorem indexFrom_first (ch : Char) (a b : Str) (i : Nat) (h : ch ∉ a) :
    indexFrom [ch] (a ++ ch :: b) i = ((i + a.length : Nat) : Int) := by
  induction a generalizing i with
  | nil => simp [indexFrom, isPrefixOf_single]
  | cons c t ih =>
    have hc : ch ≠ c := fun e => h (by simp [e])
    have ht : ch ∉ t := fun e => h (by simp [e])
    have e : (c :: t) ++ ch :: b = c :: (t ++ ch :: b) := rfl
    rw [e]
    simp only [indexFrom, isPrefixOf_single, beq_iff_eq, hc, if_false]
    rw [ih _ ht]
    simp only [List.length_cons]
    congr 1
    omega

theorem Index_not_mem (ch : Char) (s : Str) (h : ch ∉ s) : Index s [ch] = -1 :=
  indexFrom_not_mem ch s 0 h

theorem Index_first (ch : Char) (a b : Str) (h : ch ∉ a) :
    Index (a ++ ch :: b) [ch] = (a.length : Int) := by
  simp [Index, indexFrom_first ch a b 0 h]

theorem exists_first (ch : Char) (s : Str) (h : ch ∈ s) :
    ∃ a b, s = a ++ ch :: b ∧ ch ∉ a := by
  induction s with
  | nil => simp at h
  | cons c t ih =>
    by_cases hc : ch = c
    · exact ⟨[], t, by simp [hc], by simp⟩
    · have ht : ch ∈ t := by
        rcases List.mem_cons.mp h with e | e
        · exact absurd e hc
        · exact e
      obtain ⟨a, b, hab, ha⟩ := ih ht
      refine ⟨c :: a, b, by simp [hab], ?_⟩
      simp [hc, ha]

theorem Contains_single (ch : Char) (s : Str) : Contains s [ch] = true ↔ ch ∈ s := by
  constructor
  · intro h
    by_contra hn
    simp [Contains, Index_not_mem ch s hn] at h
  · intro h
    obtain ⟨a, b, hab, ha⟩ := exists_first ch s h
    simp [Contains, hab, Index_first ch a b ha]

theorem slice_prefix (a b : Str) : slice (a ++ b) 0 (a.length : Int) = a := by
  simp [slice]

theorem slice_middle (a k b : Str) :
    slice (a ++ (k ++ b)) (a.length : Int) ((a.length + k.length : Nat) : Int) = k := by
  have e : a.length + k.length - a.length = k.length := by omega
  simp only [slice, Int.toNat_ofNat, e, List.drop_left, List.take_left]

theorem Before_first (ch : Char) (a b : Str) (h : ch ∉ a) : Before (a ++ ch :: b) [ch] = a := by
  have hne : (a.length : Int) ≠ -1 := by omega
  simp only [Before, Index_first ch a b h, hne, if_false]
  exact slice_prefix a (ch :: b)

/-- `Between` on a token whose first `(` follows `name` and whose first `)` closes `k`. -/
theorem Between_paren (name k rest : Str) (h1 : '(' ∉ name) (h2 : ')' ∉ name)
    (h3 : ')' ∉ k) :
    Between (name ++ '(' :: (k ++ ')' :: rest)) ['('] [')'] = k := by
  have hL : Index (name ++ '(' :: (k ++ ')' :: rest)) ['('] = (name.length : Int) :=
    Index_first '(' name _ h1
  have hR : Index (name ++ '(' :: (k ++ ')' :: rest)) [')'] =
      ((name.length + 1 + k.length : Nat) : Int) := by
    have e : name ++ '(' :: (k ++ ')' :: rest) = (name ++ '(' :: k) ++ ')' :: rest := by simp
    have hn : ')' ∉ name ++ '(' :: k := by
      simp only [List.mem_append, List.mem_cons, not_or]
      exact ⟨h2, by decide, h3⟩
    rw [e, Index_first ')' _ rest hn]
    simp
    omega
  have hne1 : (name.length : Int) ≠ -1 := by omega
  have hne2 : ((name.length + 1 + k.length : Nat) : Int) ≠ -1 := by omega
  simp only [Between, hL, hR, hne1, hne2, if_false]
  by_cases hk : k = []
  · subst hk
    simp
  · have hpos : 0 < k.length := List.length_pos.mpr hk
    have hlt : ¬ ((name.length : Int) + (([('(' : Char)] : Str).length : Int)
        ≥ ((name.length + 1 + k.length : Nat) : Int)) := by
      simp only [List.length_singleton]
      omega
    rw [if_neg hlt]
    have e : name ++ '(' :: (k ++ ')' :: rest) = (name ++ ['(']) ++ (k ++ ')' :: rest) := by
      simp
    have e1 : (name.length : Int) + (([('(' : Char)] : Str).length : Int) =
        (((name ++ ['(']).length : Nat) : Int) := by simp
    have e2 : ((name.length + 1 + k.length : Nat) : Int) =
        (((name ++ ['(']).length + k.length : Nat) : Int) := by simp
    rw [e, e1, e2]
    exact slice_middle (name ++ ['(']) k (')' :: rest)

/-- `Between` yields the empty string when the first `)` precedes the first `(`. -/
theorem Between_close_first (name rest : Str) (h1 : '(' ∉ name) (h2 : ')' ∈ name) :
    Between (name ++ '(' :: rest) ['('] [')'] = [] := by
  obtain ⟨a, b, hab, ha⟩ := exists_first ')' name h2
  have hL : Index (name ++ '(' :: rest) ['('] = (name.length : Int) :=
    Index_first '(' name _ h1
  have hR : Index (name ++ '(' :: rest) [')'] = (a.length : Int) := by
    have e : name ++ '(' :: rest = a ++ ')' :: (b ++ '(' :: rest) := by simp [hab]
    rw [e, Index_first ')' a _ ha]
  have hlen : name.length = a.length + 1 + b.length := by
    rw [hab]
    simp
    omega
  have hne1 : (name.length : Int) ≠ -1 := by omega
  have hne2 : (a.length : Int) ≠ -1 := by omega
  have hge : (name.length : Int) + (([('(' : Char)] : Str).length : Int) ≥ (a.length : Int) := by
    simp only [List.length_singleton]
    omega
  simp only [Between, hL, hR, hne1, hne2, if_false, if_pos hge]

/-- `Between` yields the empty string when the token has no `)`. -/
theorem Between_no_close (value : Str) (h : ')' ∉ value) : Between value ['('] [')'] = [] := by
  simp only [Between, Index_not_mem ')' value h]
  split <;> simp

theorem replaceFrom_quote (s : Str) :
    replaceFrom [quote] [quote, quote] 0 s = s.flatMap escapeChar := by
  induction s with
  | nil => simp [replaceFrom]
  | cons c t ih =>
    by_cases hc : quote = c
    · subst hc
      simp [replaceFrom, isPrefixOf_single, ih, escapeChar]
    · have hc2 : ¬ c = quote := fun e => hc e.symm
      simp [replaceFrom, isPrefixOf_single, ih, escapeChar, hc, hc2]

theorem sanitize_eq_flatMap (s : Str) : sanitize s = s.flatMap escapeChar := by
  simp [sanitize, ReplaceAll, replaceFrom_quote]

theorem length_flatMap_escape (s : Str) :
    (s.flatMap escapeChar).length = s.length + s.count quote := by
  induction s with
  | nil => simp
  | cons c t ih =>
    by_cases hc : c = quote
    · subst hc
      simp [List.flatMap_cons, escapeChar, ih]
      omega
    · have hc2 : ¬ (c == quote) = true := by simpa using hc
      simp [List.flatMap_cons, escapeChar, ih, hc, List.count_cons, hc2]
      omega

theorem count_flatMap_escape (s : Str) :
    (s.flatMap escapeChar).count quote = 2 * s.count quote := by
  induction s with
  | nil => simp
  | cons c t ih =>
    by_cases hc : c = quote
    · subst hc
      simp [List.flatMap_cons, escapeChar, ih, List.count_cons]
      omega
    · have hc2 : ¬ (c == quote) = true := by simpa using hc
      simp [List.flatMap_cons, escapeChar, ih, hc, List.count_cons, hc2]

theorem flatMap_escape_of_not_mem (s : Str) (h : quote ∉ s) : s.flatMap escapeChar = s := by
  induction s with
  | nil => simp
  | cons c t ih =>
    have hc : ¬ c = quote := fun e => h (by simp [e])
    have ht : quote ∉ t := fun e => h (by simp [e])
    simp [List.flatMap_cons, escapeChar, hc, ih ht]

/-! ## Column spec parser -/

theorem processColumns_single_plain (token : Str) (h : '(' ∉ token) :
    processColumns [token] = [[token, "text".toList]] := by
  have hc : ¬ Contains token "(".toList = true := fun e => h ((Contains_single '(' token).mp e)
  simp only [processColumns, List.map_cons, List.map_nil, hc]
  rfl

theorem processColumns_single_paren (name rest : Str) (h : '(' ∉ name) :
    processColumns [name ++ '(' :: rest] =
      [[name, Between (name ++ '(' :: rest) ['('] [')']]] := by
  have hc : Contains (name ++ '(' :: rest) "(".toList = true :=
    (Contains_single '(' _).mpr (by simp)
  have hb : Before (name ++ '(' :: rest) "(".toList = name := Before_first '(' name rest h
  simp only [processColumns, List.map_cons, List.map_nil, hc, if_true, hb]
  rfl

theorem processColumns_getElem? (columns : List Str) (i : Nat) (token : Str)
    (h : columns[i]? = some token) :
    (processColumns columns)[i]? = (processColumns [token])[0]? := by
  simp [processColumns, List.getElem?_map, h]

/-- C5: `processColumns` returns a list of the same length whose `i`-th entry depends only
on the `i`-th token (it is the entry obtained by parsing that token alone); a token without
`(` gives `(token, "text")`, and a token `name(kind)` where `name` has neither `(` nor `)`
and `kind` has no `)` gives `(name, kind)`. -/
theorem processColumns_entries (columns : List Str) :
    (processColumns columns).length = columns.length ∧
    (∀ (i : Nat) (token : Str), columns[i]? = some token →
      (processColumns columns)[i]? = (processColumns [token])[0]?) ∧
    (∀ (i : Nat) (token : Str), columns[i]? = some token → '(' ∉ token →
      (processColumns columns)[i]? = some [token, "text".toList]) ∧
    (∀ (i : Nat) (name kind : Str), columns[i]? = some (name ++ "(".toList ++ kind ++ ")".toList) →
      '(' ∉ name → ')' ∉ name → ')' ∉ kind →
      (processColumns columns)[i]? = some [name, kind]) := by
  refine ⟨by simp [processColumns], processColumns_getElem? columns, ?_, ?_⟩
  · intro i token h hp
    rw [processColumns_getElem? columns i token h, processColumns_single_plain token hp]
    rfl
  · intro i name kind h h1 h2 h3
    have e : name ++ "(".toList ++ kind ++ ")".toList = name ++ '(' :: (kind ++ ')' :: []) := by
      show name ++ ['('] ++ kind ++ [')'] = _
      simp
    rw [processColumns_getElem? columns i _ h, e, processColumns_single_paren name _ h1,
      Between_paren name kind [] h1 h2 h3]
    rfl

/-- Witness of C5 on the header `test1,test2(number)` of the repository's test. -/
theorem processColumns_entries_witness :
    processColumns ["test1".toList, "test2(number)".toList] =
        [["test1".toList, "text".toList], ["test2".toList, "number".toList]] ∧
    (processColumns ["test1".toList, "test2(number)".toList])[0]? =
        some ["test1".toList, "text".toList] ∧
    (processColumns ["test1".toList, "test2(number)".toList])[1]? =
        some ["test2".toList, "number".toList] :=
  ⟨by decide,
   (processColumns_entries ["test1".toList, "test2(number)".toList]).2.2.1 0 "test1".toList
     (by decide) (by decide),
   (processColumns_entries ["test1".toList, "test2(number)".toList]).2.2.2 1 "test2".toList
     "number".toList (by decide) (by decide) (by decide) (by decide)⟩

/-- C6, as stated, fails on the token `a)b(c)`: the text between the first `(` and the first
`)` after it is `c`, but `processColumns` yields the empty kind. -/
theorem kind_after_open_counterexample :
    specKind "a)b(c)".toList = "c".toList ∧
    processColumns ["a)b(c)".toList] = [["a)b".toList, []]] ∧
    processColumns ["a)b(c)".toList] ≠ [["a)b".toList, specKind "a)b(c)".toList]] := by
  decide

/-- C6 (amended): for a token `name ++ "(" ++ rest` with no `(` in `name`, `processColumns`
yields `name` as the name; the kind is the text strictly between that `(` and the first `)`
of the whole token when this `)` comes after the `(`, and it is empty when the first `)` of
the token precedes the first `(` or when the token has no `)` at all. -/
theorem processColumns_paren_token (name rest : Str) (h : '(' ∉ name) :
    (∀ k rest', ')' ∉ name → ')' ∉ k → rest = k ++ ')' :: rest' →
      processColumns [name ++ '(' :: rest] = [[name, k]]) ∧
    ((')' ∈ name ∨ ')' ∉ rest) → processColumns [name ++ '(' :: rest] = [[name, []]]) := by
  constructor
  · intro k rest' h2 h3 hr
    rw [processColumns_single_paren name rest h, hr, Between_paren name k rest' h h2 h3]
  · intro hc
    rw [processColumns_single_paren name rest h]
    by_cases h2 : ')' ∈ name
    · rw [Between_close_first name rest h h2]
    · have h3 : ')' ∉ rest := by
        rcases hc with hc | hc
        · exact absurd hc h2
        · exact hc
      have hn : ')' ∉ name ++ '(' :: rest := by
        simp only [List.mem_append, List.mem_cons, not_or]
        exact ⟨h2, by decide, h3⟩
      rw [Between_no_close _ hn]

/-- Witness of C6 (amended) on the tokens `z(k)(l)` and `a)b(c)`. -/
theorem processColumns_paren_token_witness :
    processColumns ["z(k)(l)".toList] = [["z".toList, "k".toList]] ∧
    processColumns ["a)b(c)".toList] = [["a)b".toList, []]] :=
  ⟨(processColumns_paren_token "z".toList "k)(l)".toList (by decide)).1 "k".toList
      "(l)".toList (by decide) (by decide) (by decide),
   (processColumns_paren_token "a)b".toList "c)".toList (by decide)).2
      (Or.inl (by decide))⟩

/-! ## Sanitizer -/

/-- C7: `sanitize s` is `s` with every single quote replaced by two single quotes and every
other character unchanged and in order; its length is the length of `s` plus the number of
single quotes in `s`; and `sanitize "wendy's" = "wendy''s"`. -/
theorem sanitize_doubles_quotes (s : Str) :
    sanitize s = s.flatMap escapeChar ∧
    (sanitize s).length = s.length + s.count quote ∧
    sanitize "wendy's".toList = "wendy''s".toList := by
  refine ⟨sanitize_eq_flatMap s, ?_, by decide⟩
  rw [sanitize_eq_flatMap, length_flatMap_escape]

/-- C8: `sanitize` is not idempotent: when `s` contains a single quote, sanitizing twice
differs from sanitizing once and holds twice as many single quotes; sanitizing twice equals
sanitizing once exactly when `s` has no single quote, and then `sanitize s = s`. -/
theorem sanitize_not_idempotent (s : Str) :
    (quote ∈ s → sanitize (sanitize s) ≠ sanitize s ∧
      (sanitize (sanitize s)).count quote = 2 * (sanitize s).count quote) ∧
    (sanitize (sanitize s) = sanitize s ↔ quote ∉ s) ∧
    (quote ∉ s → sanitize s = s) := by
  have hcount : ∀ x : Str, (sanitize x).count quote = 2 * x.count quote := fun x => by
    rw [sanitize_eq_flatMap, count_flatMap_escape]
  have hlen : ∀ x : Str, (sanitize x).length = x.length + x.count quote := fun x => by
    rw [sanitize_eq_flatMap, length_flatMap_escape]
  have hfix : ∀ x : Str, quote ∉ x → sanitize x = x := fun x hx => by
    rw [sanitize_eq_flatMap, flatMap_escape_of_not_mem x hx]
  have hne : quote ∈ s → sanitize (sanitize s) ≠ sanitize s := by
    intro hq e
    have h1 := hlen (sanitize s)
    rw [e, hcount s] at h1
    have h2 : 0 < s.count quote := List.count_pos_iff.mpr hq
    omega
  refine ⟨fun hq => ⟨hne hq, hcount (sanitize s)⟩, ⟨?_, ?_⟩, hfix s⟩
  · intro e hq
    exact hne hq e
  · intro hq
    rw [hfix s hq, hfix s hq]

/-- Witness of C8 on `wendy's`. -/
theorem sanitize_not_idempotent_witness :
    quote ∈ "wendy's".toList ∧
    sanitize (sanitize "wendy's".toList) ≠ sanitize "wendy's".toList ∧
    (sanitize (sanitize "wendy's".toList)).count quote =
      2 * (sanitize "wendy's".toList).count quote ∧
    sanitize "wendys".toList = "wendys".toList :=
  ⟨by decide,
   ((sanitize_not_idempotent "wendy's".toList).1 (by decide)).1,
   ((sanitize_not_idempotent "wendy's".toList).1 (by decide)).2,
   (sanitize_not_idempotent "wendys".toList).2.2 (by decide)⟩

/-! ## Insert statement builder -/

theorem columnsLoop_prefix (columns : List (List Str)) (insert comma out : Str)
    (h : columnsLoop columns insert comma = some out) : insert <+: out := by
  induction columns generalizing insert comma with
  | nil =>
    simp only [columnsLoop, Option.some.injEq] at h
    exact h ▸ List.prefix_refl _
  | cons col rest ih =>
    simp only [columnsLoop, Option.bind_eq_bind, Option.bind_eq_some] at h
    obtain ⟨name, _, h2⟩ := h
    have h3 := ih _ _ h2
    exact List.IsPrefix.trans ⟨comma ++ " ".toList ++ name, by simp⟩ h3

theorem valuesLoop_prefix (values : List Str) (columns : List (List Str)) (j : Nat)
    (insert comma out : Str) (h : valuesLoop values columns j insert comma = some out) :
    insert <+: out := by
  induction columns generalizing j insert comma with
  | nil =>
    simp only [valuesLoop, Option.some.injEq] at h
    exact h ▸ List.prefix_refl _
  | cons col rest ih =>
    simp only [valuesLoop, Option.bind_eq_bind, Option.bind_eq_some] at h
    obtain ⟨kind, _, v, _, h2⟩ := h
    have h3 := ih _ _ _ h2
    refine List.IsPrefix.trans ?_ h3
    split
    · exact ⟨comma ++ " ".toList ++ [quote] ++ sanitize v ++ [quote], by simp⟩
    · exact ⟨comma ++ " ".toList ++ v, by simp⟩

theorem recordsLoop_prefix (columns : List (List Str)) (n : Nat) (records : List record)
    (i : Nat) (insert out : Str) (h : recordsLoop columns n records i insert = some out) :
    insert <+: out := by
  induction records generalizing i insert with
  | nil =>
    simp only [recordsLoop, Option.some.injEq] at h
    exact h ▸ List.prefix_refl _
  | cons r rest ih =>
    simp only [recordsLoop, Option.bind_eq_bind, Option.bind_eq_some] at h
    obtain ⟨ins, h1, h2⟩ := h
    have h3 := ih _ _ h2
    have h4 := valuesLoop_prefix _ _ _ _ _ _ h1
    refine List.IsPrefix.trans (List.IsPrefix.trans ⟨"  (".toList, rfl⟩ h4) (List.IsPrefix.trans ?_ h3)
    split
    · exact ⟨"),\n".toList, rfl⟩
    · exact List.prefix_refl _

/-- C9: on an empty row sequence `createInsertStatement` returns the empty string; on a
non-empty row sequence, whenever it returns (does not panic), the result is non-empty,
starts with `insert into ` followed by the table name and ends with `);` and a newline. -/
theorem createInsertStatement_frame (table : Str) (columns : List (List Str)) :
    createInsertStatement [] table columns = some [] ∧
    ∀ (records : List record) (out : Str), records ≠ [] →
      createInsertStatement records table columns = some out →
      out ≠ [] ∧ ("insert into ".toList ++ table) <+: out ∧ ");\n".toList <:+ out := by
  refine ⟨rfl, ?_⟩
  intro records out hne h
  have hlen : ¬ records.length = 0 := fun e => hne (List.length_eq_zero.mp e)
  simp only [createInsertStatement, hlen, if_false, Option.bind_eq_bind,
    Option.bind_eq_some, Option.some.injEq] at h
  obtain ⟨ins1, h1, ins2, h2, h3⟩ := h
  have p1 := columnsLoop_prefix _ _ _ _ h1
  have p2 := recordsLoop_prefix _ _ _ _ _ _ h2
  have p0 : ("insert into ".toList ++ table) <+:
      ("insert into".toList ++ " ".toList ++ table ++ " (".toList) :=
    ⟨" (".toList, by simp⟩
  have p3 : ins1 <+: ins2 := List.IsPrefix.trans ⟨") values \n".toList, rfl⟩ p2
  have p4 : ins2 <+: out := ⟨");\n".toList, h3⟩
  refine ⟨?_, List.IsPrefix.trans (List.IsPrefix.trans (List.IsPrefix.trans p0 p1) p3) p4,
    ⟨ins2, h3⟩⟩
  rw [← h3]
  simp

/-- Witness of C9 on the row `wendy's` for one text column. -/
theorem createInsertStatement_frame_witness :
    createInsertStatement [{ values := ["wendy's".toList] }] "t".toList
        [["a".toList, "text".toList]] =
      some "insert into t ( a) values \n  ( 'wendy''s');\n".toList ∧
    ("insert into ".toList ++ "t".toList) <+:
      "insert into t ( a) values \n  ( 'wendy''s');\n".toList ∧
    ");\n".toList <:+ "insert into t ( a) values \n  ( 'wendy''s');\n".toList :=
  ⟨by decide,
   ((createInsertStatement_frame "t".toList [["a".toList, "text".toList]]).2
      [{ values := ["wendy's".toList] }] _ (by decide) (by decide)).2⟩

theorem intercalate_cons_cons (sep a b : Str) (l : List Str) :
    List.intercalate sep (a :: b :: l) = a ++ sep ++ List.intercalate sep (b :: l) := by
  simp [List.intercalate]

theorem intercalate_single (sep a : Str) : List.intercalate sep [a] = a := by
  simp [List.intercalate]

theorem intercalate_cons (sep x : Str) (xs : List Str) :
    List.intercalate sep (x :: xs) = x ++ xs.flatMap (fun y => sep ++ y) := by
  induction xs generalizing x with
  | nil => simp [List.intercalate]
  | cons y ys ih => rw [intercalate_cons_cons, ih y]; simp

theorem columnsLoop_entries (cols : List (Str × Str)) (insert : Str) :
    columnsLoop (cols.map specEntry) insert ",".toList =
      some (insert ++ (cols.map Prod.fst).flatMap (fun y => ", ".toList ++ y)) := by
  induction cols generalizing insert with
  | nil => simp [columnsLoop]
  | cons c rest ih =>
    simp only [List.map_cons, columnsLoop, specEntry, List.getElem?_cons_zero,
      Option.bind_eq_bind, Option.some_bind]
    have := ih (insert ++ ",".toList ++ " ".toList ++ c.1)
    simp only [specEntry] at this
    rw [this]
    simp

theorem columnsLoop_first (cols : List (Str × Str)) (insert : Str) (h : cols ≠ []) :
    columnsLoop (cols.map specEntry) insert [] =
      some (insert ++ " ".toList ++ List.intercalate ", ".toList (cols.map Prod.fst)) := by
  cases cols with
  | nil => exact absurd rfl h
  | cons c rest =>
    have := columnsLoop_entries rest (insert ++ [] ++ " ".toList ++ c.1)
    simp only [List.map_cons, columnsLoop, specEntry, List.getElem?_cons_zero,
      Option.bind_eq_bind, Option.some_bind, intercalate_cons] at this ⊢
    rw [this]
    simp

theorem valuesLoop_entries (row : List Str) (cols : List (Str × Str)) (j : Nat) (insert : Str)
    (h : j + cols.length ≤ row.length) :
    valuesLoop row (cols.map specEntry) j insert ",".toList =
      some (insert ++ (List.zipWith renderValue (cols.map Prod.snd) (row.drop j)).flatMap
        (fun y => ", ".toList ++ y)) := by
  induction cols generalizing j insert with
  | nil => simp [valuesLoop]
  | cons c rest ih =>
    have hj : j < row.length := by simp at h; omega
    have hrest : j + 1 + rest.length ≤ row.length := by simp at h; omega
    rw [List.drop_eq_getElem_cons hj]
    simp only [List.map_cons, valuesLoop, specEntry, List.getElem?_cons_succ,
      List.getElem?_cons_zero, Option.bind_eq_bind, Option.some_bind,
      List.getElem?_eq_getElem hj, List.zipWith_cons_cons, List.flatMap_cons]
    have := ih (j + 1) (if c.2 = "text".toList then
        insert ++ ",".toList ++ " ".toList ++ [quote] ++ sanitize row[j] ++ [quote]
      else insert ++ ",".toList ++ " ".toList ++ row[j]) hrest
    simp only [specEntry] at this
    rw [this]
    unfold renderValue
    split <;> simp

theorem valuesLoop_first (row : List Str) (cols : List (Str × Str)) (insert : Str)
    (hc : cols ≠ []) (h : cols.length ≤ row.length) :
    valuesLoop row (cols.map specEntry) 0 insert [] =
      some (insert ++ " ".toList ++
        List.intercalate ", ".toList (List.zipWith renderValue (cols.map Prod.snd) row)) := by
  cases cols with
  | nil => exact absurd rfl hc
  | cons c rest =>
    have h0 : 0 < row.length := by simp at h; omega
    have hrest : 0 + 1 + rest.length ≤ row.length := by simp at h; omega
    have e : row = row[0] :: row.drop 1 := by
      have := List.drop_eq_getElem_cons h0
      simpa using this
    have := valuesLoop_entries row rest (0 + 1) (if c.2 = "text".toList then
        insert ++ [] ++ " ".toList ++ [quote] ++ sanitize row[0] ++ [quote]
      else insert ++ [] ++ " ".toList ++ row[0]) hrest
    simp only [List.map_cons, valuesLoop, specEntry, List.getElem?_cons_succ,
      List.getElem?_cons_zero, Option.bind_eq_bind, Option.some_bind,
      List.getElem?_eq_getElem h0] at this ⊢
    rw [this]
    conv => rhs; rw [e]
    simp only [List.zipWith_cons_cons, intercalate_cons]
    unfold renderValue
    split <;> simp

/-- The outer loop writes the rows, each opened by `  (` and a space, separated by `),` and a
newline. -/
theorem recordsLoop_entries (cols : List (Str × Str)) (n : Nat) (hc : cols ≠ [])
    (batch : List (List Str)) (i : Nat) (insert : Str) (hb : batch ≠ [])
    (hn : i + batch.length = n) (hrows : ∀ row ∈ batch, cols.length ≤ row.length) :
    recordsLoop (cols.map specEntry) n (batch.map record.mk) i insert =
      some (insert ++ List.intercalate "),\n".toList (batch.map fun row =>
        "  (".toList ++ " ".toList ++
          List.intercalate ", ".toList (List.zipWith renderValue (cols.map Prod.snd) row))) := by
  induction batch generalizing i insert with
  | nil => exact absurd rfl hb
  | cons row rest ih =>
    have hrow : cols.length ≤ row.length := hrows row (by simp)
    simp only [List.map_cons, recordsLoop, Option.bind_eq_bind,
      valuesLoop_first row cols _ hc hrow, Option.some_bind]
    cases rest with
    | nil =>
      have hi : ¬ ((i : Int) < (n : Int) - 1) := by simp at hn; omega
      simp [hi, recordsLoop, intercalate_single]
    | cons row2 rest2 =>
      have hi : (i : Int) < (n : Int) - 1 := by simp at hn; omega
      have hrows2 : ∀ r ∈ row2 :: rest2, cols.length ≤ r.length :=
        fun r hr => hrows r (List.mem_cons_of_mem _ hr)
      have hn2 : i + 1 + (row2 :: rest2).length = n := by simp at hn ⊢; omega
      rw [if_pos hi, ih (i + 1) _ (by simp) hn2 hrows2]
      simp only [List.map_cons, intercalate_cons_cons]
      simp

theorem close_rows (l : List Str) (h : l ≠ []) :
    List.intercalate "),\n".toList l ++ ");\n".toList =
      List.intercalate ",\n".toList (l.map fun a => a ++ ")".toList) ++ ";\n".toList := by
  induction l with
  | nil => exact absurd rfl h
  | cons a rest ih =>
    cases rest with
    | nil => simp [intercalate_single]
    | cons b rest2 =>
      have := ih (by simp)
      simp only [List.map_cons, intercalate_cons_cons, List.append_assoc] at this ⊢
      rw [this]
      simp

theorem shape_assemble (pre L R suffL suffR : Str) (h : L ++ suffL = R ++ suffR) :
    pre ++ L ++ suffL = pre ++ R ++ suffR := by
  rw [List.append_assoc, h, List.append_assoc]

theorem close_rows_shape (cols : List (Str × Str)) (batch : List (List Str)) (hb : batch ≠ []) :
    List.intercalate "),\n".toList (batch.map fun row =>
        "  (".toList ++ " ".toList ++
          List.intercalate ", ".toList (List.zipWith renderValue (cols.map Prod.snd) row)) ++
      ");\n".toList =
    List.intercalate ",\n".toList (batch.map fun row =>
        "  ".toList ++ "( ".toList ++
          List.intercalate ", ".toList (List.zipWith renderValue (cols.map Prod.snd) row) ++
          ")".toList) ++
      ";\n".toList := by
  rw [close_rows _ (by simpa using hb), List.map_map]
  congr 2

theorem createInsertStatement_entries (table : Str) (cols : List (Str × Str))
    (batch : List (List Str)) (hc : cols ≠ []) (hb : batch ≠ [])
    (hrows : ∀ row ∈ batch, cols.length ≤ row.length) :
    createInsertStatement (batch.map record.mk) table (cols.map specEntry) =
      some (statementShape "( ".toList table cols batch) := by
  have hlen : ¬ (batch.map record.mk).length = 0 := by
    simp only [List.length_map]
    exact fun e => hb (List.length_eq_zero.mp e)
  simp only [createInsertStatement, hlen, if_false, Option.bind_eq_bind,
    columnsLoop_first cols _ hc, Option.some_bind,
    recordsLoop_entries cols (batch.map record.mk).length hc batch 0 _ hb (by simp) hrows,
    statementShape]
  refine congrArg some ?_
  refine (shape_assemble _ _ _ _ _ (close_rows_shape cols batch hb)).trans ?_
  congr 2
  simp

/-- C10, as stated, fails on one row `1` for one column `a` of kind `number`: the code
writes a space between each opening parenthesis and the first name or value. -/
theorem statement_shape_counterexample :
    createInsertStatement [{ values := ["1".toList] }] "t".toList
        [specEntry ("a".toList, "number".toList)] =
      some "insert into t ( a) values \n  ( 1);\n".toList ∧
    statementShape "(".toList "t".toList [("a".toList, "number".toList)] [["1".toList]] =
      "insert into t (a) values \n  (1);\n".toList ∧
    createInsertStatement [{ values := ["1".toList] }] "t".toList
        [specEntry ("a".toList, "number".toList)] ≠
      some (statementShape "(".toList "t".toList [("a".toList, "number".toList)]
        [["1".toList]]) := by
  decide

/-- C10 (amended): for a non-empty column-spec list and a non-empty batch whose rows each have
exactly as many fields as there are columns, `createInsertStatement` returns the statement of
the specified shape in which every opening parenthesis is followed by one space: `insert
into t ( ` + names joined by `, ` + `) values ` + newline, then per row two spaces, `( `, the
rendered values joined by `, `, and `)`, rows joined by `,` + newline, then `;` + newline. -/
theorem createInsertStatement_shape (table : Str) (cols : List (Str × Str))
    (batch : List (List Str)) (hc : cols ≠ []) (hb : batch ≠ [])
    (hrows : ∀ row ∈ batch, row.length = cols.length) :
    createInsertStatement (batch.map record.mk) table (cols.map specEntry) =
      some (statementShape "( ".toList table cols batch) :=
  createInsertStatement_entries table cols batch hc hb
    (fun row hr => le_of_eq (hrows row hr).symm)

/-- Witness of C10 (amended) on two rows for a text column and a number column. -/
theorem createInsertStatement_shape_witness :
    createInsertStatement
        ([["wendy's".toList, "3".toList], ["x".toList, "4".toList]].map record.mk) "t".toList
        ([("a".toList, "text".toList), ("b".toList, "number".toList)].map specEntry) =
      some (statementShape "( ".toList "t".toList
        [("a".toList, "text".toList), ("b".toList, "number".toList)]
        [["wendy's".toList, "3".toList], ["x".toList, "4".toList]]) ∧
    statementShape "( ".toList "t".toList
        [("a".toList, "text".toList), ("b".toList, "number".toList)]
        [["wendy's".toList, "3".toList], ["x".toList, "4".toList]] =
      "insert into t ( a, b) values \n  ( 'wendy''s', 3),\n  ( 'x', 4);\n".toList :=
  ⟨createInsertStatement_shape "t".toList
      [("a".toList, "text".toList), ("b".toList, "number".toList)]
      [["wendy's".toList, "3".toList], ["x".toList, "4".toList]]
      (by decide) (by decide) (by decide),
   by decide⟩

/-! ## Row batching and transaction chunking engine -/

theorem batches_append (a b : List Write) : batches (a ++ b) = batches a ++ batches b := by
  induction a with
  | nil => rfl
  | cons w ws ih => cases w <;> simp [batches, ih]

theorem markers_append (a b : List Write) : markers (a ++ b) = markers a ++ markers b := by
  induction a with
  | nil => rfl
  | cons w ws ih => cases w <;> simp [markers, ih]

theorem batches_map_insert (bs : List (List record)) : batches (bs.map Write.insert) = bs := by
  induction bs with
  | nil => rfl
  | cons b rest ih => simp [batches, ih]

theorem markers_map_insert (bs : List (List record)) : markers (bs.map Write.insert) = [] := by
  induction bs with
  | nil => rfl
  | cons b rest ih => simp [markers, ih]

theorem eq_map_insert_of_markers_nil (ws : List Write) (h : markers ws = []) :
    ws = (batches ws).map Write.insert := by
  induction ws with
  | nil => rfl
  | cons w rest ih =>
    cases w with
    | text m => simp [markers] at h
    | insert b =>
      simp only [markers] at h
      simp only [batches, List.map_cons]
      rw [← ih h]

theorem BatchInv_init (s : Int) (hs : 1 ≤ s) : BatchInv s Engine.init [] := by
  refine ⟨rfl, ?_, ?_, rfl⟩
  · simp [Engine.init]; omega
  · intro b hb
    simp [Engine.init, batches] at hb

theorem BatchInv_step (s c : Int) (st : Engine) (rows : List (List Str)) (entry : List Str)
    (h : BatchInv s st rows) : BatchInv s (loopBody s c st entry) (rows ++ [entry]) := by
  obtain ⟨h1, h2, h3, h4⟩ := h
  have hlt : st.insertChunkCount < s := by omega
  unfold loopBody
  simp only [hlt, if_true]
  by_cases hfull : st.insertChunkCount + 1 = s
  · simp only [hfull, if_true]
    have hlen : ((st.insertChunk ++ [({ values := entry } : record)]).length : Int) = s := by
      simp only [List.length_append, List.length_singleton]
      push_cast
      omega
    have hrows : ((batches st.written).flatten ++
        (st.insertChunk ++ [({ values := entry } : record)])).map
        record.values = rows ++ [entry] := by
      rw [← h4]
      simp
    split_ifs <;>
    · refine ⟨?_, ?_, ?_, ?_⟩
      · simp
      · simp; omega
      · intro b hb
        simp only [batches_append, batches, List.append_nil, List.mem_append,
          List.mem_singleton] at hb
        rcases hb with hb | hb
        · exact h3 b hb
        · rw [hb]; exact hlen
      · simp only [batches_append, batches, List.append_nil, List.flatten_append,
          List.flatten_cons, List.flatten_nil]
        simpa using hrows
  · simp only [hfull, if_false]
    have hlen : ((st.insertChunk ++ [({ values := entry } : record)]).length : Int) < s := by
      simp only [List.length_append, List.length_singleton]
      push_cast
      omega
    have hrows : ((batches st.written).flatten ++
        (st.insertChunk ++ [({ values := entry } : record)])).map
        record.values = rows ++ [entry] := by
      rw [← h4]
      simp
    split_ifs <;>
    · refine ⟨?_, ?_, ?_, ?_⟩
      · simp [h1]
      · exact hlen
      · intro b hb
        simp only [batches_append, batches, List.append_nil] at hb
        exact h3 b hb
      · simp only [batches_append, batches, List.append_nil]
        exact hrows

theorem BatchInv_foldl (s c : Int) (rows : List (List Str)) (st : Engine)
    (done : List (List Str)) (h : BatchInv s st done) :
    BatchInv s (rows.foldl (loopBody s c) st) (done ++ rows) := by
  induction rows generalizing st done with
  | nil => simpa using h
  | cons r rest ih =>
    have := ih (loopBody s c st r) (done ++ [r]) (BatchInv_step s c st done r h)
    simpa using this

theorem BatchInv_runLoop (s c : Int) (hs : 1 ≤ s) (rows : List (List Str)) :
    BatchInv s (runLoop s c rows) rows := by
  have := BatchInv_foldl s c rows Engine.init [] (BatchInv_init s hs)
  simpa [runLoop] using this

theorem batches_afterLoop (c : Int) (st : Engine) :
    batches (afterLoop c st) =
      batches st.written ++ (if st.insertChunk = [] then [] else [st.insertChunk]) := by
  unfold afterLoop
  by_cases hp : st.insertChunk = []
  · simp only [hp, List.length_nil, gt_iff_lt, lt_self_iff_false, if_false, List.append_nil]
    split_ifs <;> simp [batches_append, batches]
  · have hpos : st.insertChunk.length > 0 := List.length_pos.mpr hp
    simp only [hpos, if_true, hp, if_false]
    split_ifs <;> simp [batches_append, batches]

theorem length_flatten_of_uniform {α : Type} (k : Nat) (W : List (List α))
    (hW : ∀ b ∈ W, b.length = k) : W.flatten.length = W.length * k := by
  induction W with
  | nil => simp
  | cons b rest ih =>
    have hb : b.length = k := hW b (by simp)
    have hr : ∀ x ∈ rest, x.length = k := fun x hx => hW x (List.mem_cons_of_mem _ hx)
    simp only [List.flatten_cons, List.length_append, List.length_cons, ih hr, hb]
    rw [Nat.add_mul]
    omega

theorem chunk_list_props (k : Nat) (hk : 1 ≤ k) (W : List (List record)) (p : List record)
    (hW : ∀ b ∈ W, b.length = k) (hp : p.length < k) :
    (W ++ (if p = [] then [] else [p])).length = ((W.flatten ++ p).length + k - 1) / k ∧
    (∀ b ∈ (W ++ (if p = [] then [] else [p])).dropLast, b.length = k) ∧
    (∀ b ∈ (W ++ (if p = [] then [] else [p])).getLast?, 1 ≤ b.length ∧ b.length ≤ k) := by
  have hflat := length_flatten_of_uniform k W hW
  by_cases hpe : p = []
  · subst hpe
    simp only [if_true, List.append_nil, List.length_nil, Nat.add_zero, hflat]
    refine ⟨?_, ?_, ?_⟩
    · have e : W.length * k + k - 1 = (k - 1) + k * W.length := by
        rw [Nat.mul_comm]; omega
      rw [e, Nat.add_mul_div_left _ _ (by omega : 0 < k), Nat.div_eq_of_lt (by omega)]
      omega
    · intro b hb
      exact hW b (List.mem_of_mem_dropLast hb)
    · intro b hb
      have hmem : b ∈ W := List.mem_of_getLast?_eq_some hb
      have := hW b hmem
      omega
  · have hpos : 0 < p.length := List.length_pos.mpr hpe
    simp only [hpe, if_false, List.length_append, List.length_singleton, hflat]
    refine ⟨?_, ?_, ?_⟩
    · have e : W.length * k + p.length + k - 1 = (p.length - 1) + k * (W.length + 1) := by
        rw [Nat.mul_add, Nat.mul_comm]; omega
      rw [e, Nat.add_mul_div_left _ _ (by omega : 0 < k), Nat.div_eq_of_lt (by omega)]
      omega
    · intro b hb
      rw [List.dropLast_concat] at hb
      exact hW b hb
    · intro b hb
      rw [List.getLast?_concat] at hb
      simp only [Option.mem_def, Option.some.injEq] at hb
      subst hb
      omega

/-- The batches of the unevaluated engine are the consecutive chunks of the rows. -/
theorem readCSVFile_batches (s c : Int) (hs : 1 ≤ s) (rows : List (List Str)) :
    (batches (readCSVFile s c rows)).flatten.map record.values = rows ∧
    ((batches (readCSVFile s c rows)).length : Int) = ((rows.length : Int) + s - 1) / s ∧
    (∀ b ∈ (batches (readCSVFile s c rows)).dropLast, (b.length : Int) = s) ∧
    (∀ b ∈ (batches (readCSVFile s c rows)).getLast?,
      1 ≤ b.length ∧ (b.length : Int) ≤ s) := by
  obtain ⟨_, h2, h3, h4⟩ := BatchInv_runLoop s c hs rows
  lift s to ℕ using (by omega : 0 ≤ s) with k
  have hk : 1 ≤ k := by omega
  have hW : ∀ b ∈ batches (runLoop (k : Int) c rows).written, b.length = k :=
    fun b hb => by have := h3 b hb; omega
  have hp : (runLoop (k : Int) c rows).insertChunk.length < k := by omega
  obtain ⟨p1, p2, p3⟩ := chunk_list_props k hk _ _ hW hp
  have hlen : rows.length = ((batches (runLoop (k : Int) c rows).written).flatten ++
      (runLoop (k : Int) c rows).insertChunk).length := by
    conv => lhs; rw [← h4]
    rw [List.length_map]
  simp only [readCSVFile, batches_afterLoop]
  refine ⟨?_, ?_, ?_, ?_⟩
  · conv => rhs; rw [← h4]
    congr 1
    split_ifs with hpe
    · simp [hpe]
    · simp
  · rw [p1, hlen]
    have e : ∀ m : Nat, ((m : Int) + (k : Int) - 1) = ((m + k - 1 : Nat) : Int) := by
      intro m; omega
    rw [e, ← Int.natCast_div]
  · intro b hb
    have := p2 b hb
    omega
  · intro b hb
    have := p3 b hb
    omega

theorem markers_loopBody_of_nonpos (s c : Int) (hc : c ≤ 0) (st : Engine) (entry : List Str) :
    markers (loopBody s c st entry).written = markers st.written := by
  have hc0 : ¬ c > 0 := by omega
  unfold loopBody
  simp only [hc0, false_and, if_false]
  split_ifs <;> simp [markers_append, markers]

theorem markers_foldl_of_nonpos (s c : Int) (hc : c ≤ 0) (rows : List (List Str)) (st : Engine) :
    markers (rows.foldl (loopBody s c) st).written = markers st.written := by
  induction rows generalizing st with
  | nil => rfl
  | cons r rest ih =>
    rw [List.foldl_cons, ih, markers_loopBody_of_nonpos s c hc]

theorem markers_readCSVFile_of_nonpos (s c : Int) (hc : c ≤ 0) (rows : List (List Str)) :
    markers (readCSVFile s c rows) = [] := by
  have hc0 : ¬ c > 0 := by omega
  have h := markers_foldl_of_nonpos s c hc rows Engine.init
  unfold readCSVFile afterLoop runLoop
  simp only [hc0, false_and, if_false]
  split_ifs
  · rw [markers_append, h]; rfl
  · rw [h]; rfl

theorem sqlText_map_insert (table : Str) (columns : List (List Str))
    (bs : List (List record)) :
    sqlText table columns (bs.map Write.insert) = concatStatements table columns bs := by
  induction bs with
  | nil => rfl
  | cons b rest ih => simp only [List.map_cons, sqlText, concatStatements, Write.render, ih]

/-- C2: with chunk-size `0` and insert-chunk-size `s ≥ 1` the engine writes no marker at
all: its writes are exactly the statements of its batches, so the text written is the
concatenation, in order, of `createInsertStatement` on the batches; and the batches are the
consecutive `s`-row chunks of the input (concatenated they are the input, all but the last
have `s` rows, the last has between `1` and `s` rows). -/
theorem readCSVFile_without_transactions (s : Int) (hs : 1 ≤ s) (rows : List (List Str))
    (table : Str) (columns : List (List Str)) :
    markers (readCSVFile s 0 rows) = [] ∧
    readCSVFile s 0 rows = (batches (readCSVFile s 0 rows)).map Write.insert ∧
    sqlText table columns (readCSVFile s 0 rows) =
      concatStatements table columns (batches (readCSVFile s 0 rows)) ∧
    (batches (readCSVFile s 0 rows)).flatten.map record.values = rows ∧
    (∀ b ∈ (batches (readCSVFile s 0 rows)).dropLast, (b.length : Int) = s) ∧
    (∀ b ∈ (batches (readCSVFile s 0 rows)).getLast?,
      1 ≤ b.length ∧ (b.length : Int) ≤ s) := by
  have hm := markers_readCSVFile_of_nonpos s 0 (le_refl 0) rows
  have he := eq_map_insert_of_markers_nil _ hm
  obtain ⟨b1, _, b3, b4⟩ := readCSVFile_batches s 0 hs rows
  refine ⟨hm, he, ?_, b1, b3, b4⟩
  conv => lhs; rw [he]
  exact sqlText_map_insert table columns _

theorem openWrites_of_ne (pending : List (List record)) (h : pending ≠ []) :
    openWrites pending =
      Write.text "begin transaction;\n".toList :: pending.map Write.insert := by
  simp [openWrites, h]

theorem batches_group (g : Group) : batches g.writes = g.stmts := by
  simp [Group.writes, batches, batches_append, batches_map_insert]

theorem markers_group (g : Group) : markers g.writes = [g.opening, g.closing] := by
  simp [Group.writes, markers, markers_append, markers_map_insert]

theorem batches_groups (gs : List Group) :
    batches (gs.flatMap Group.writes) = gs.flatMap Group.stmts := by
  induction gs with
  | nil => rfl
  | cons g rest ih => simp [List.flatMap_cons, batches_append, batches_group, ih]

theorem markers_groups (gs : List Group) :
    markers (gs.flatMap Group.writes) = gs.flatMap (fun g => [g.opening, g.closing]) := by
  induction gs with
  | nil => rfl
  | cons g rest ih => simp [List.flatMap_cons, markers_append, markers_group, ih]

theorem batches_openWrites (pending : List (List record)) :
    batches (openWrites pending) = pending := by
  by_cases h : pending = []
  · simp [openWrites, h, batches]
  · simp [openWrites, h, batches, batches_map_insert]

theorem GroupInv_init (c : Int) (hc : 0 < c) : GroupInv c Engine.init [] [] := by
  refine ⟨rfl, rfl, by simpa using hc, ?_⟩
  intro g hg
  simp at hg

theorem GroupInv_step (s c : Int) (hc : 0 < c) (st : Engine) (entry : List Str)
    (gs : List Group) (pending : List (List record))
    (hlt : st.insertChunkCount < s) (h : GroupInv c st gs pending) :
    ∃ gs' pending', GroupInv c (loopBody s c st entry) gs' pending' := by
  obtain ⟨h1, h2, h3, h4⟩ := h
  have hc0 : c > 0 := hc
  have hne : ¬ st.chunkCount = c := by omega
  unfold loopBody
  simp only [hlt, if_true, hc0, true_and]
  by_cases hfull : st.insertChunkCount + 1 = s
  · simp only [hfull, if_true]
    have hw : (if st.chunkCount = 0 then
          st.written ++ [Write.text "begin transaction;\n".toList]
        else st.written) ++ [Write.insert (st.insertChunk ++ [{ values := entry }])] =
        gs.flatMap Group.writes ++
          openWrites (pending ++ [st.insertChunk ++ [{ values := entry }]]) := by
      rw [openWrites_of_ne _ (by simp), h1]
      by_cases hp : pending = []
      · have h0 : st.chunkCount = 0 := by rw [h2, hp]; rfl
        simp [h0, hp, openWrites]
      · have h0 : ¬ st.chunkCount = 0 := by
          have := List.length_pos.mpr hp
          omega
        simp [h0, openWrites_of_ne _ hp]
    rw [hw]
    by_cases hlast : st.chunkCount + 1 = c
    · simp only [hlast, if_true]
      refine ⟨gs ++ [{ opening := "begin transaction;\n".toList,
                       stmts := pending ++ [st.insertChunk ++ [{ values := entry }]],
                       closing := "commit transaction;\n\n".toList }], [], ?_, rfl,
        by simpa using hc, ?_⟩
      · rw [openWrites_of_ne _ (by simp)]
        simp [openWrites, Group.writes]
      · intro g hg
        rcases List.mem_append.mp hg with hg | hg
        · exact h4 g hg
        · rw [List.mem_singleton.mp hg]
          refine ⟨rfl, rfl, ?_⟩
          simp only [List.length_append, List.length_singleton]
          push_cast
          omega
    · simp only [hlast, if_false]
      refine ⟨gs, pending ++ [st.insertChunk ++ [{ values := entry }]], rfl, ?_, ?_, h4⟩
      · simp only [List.length_append, List.length_singleton]
        push_cast
        omega
      · simp only [List.length_append, List.length_singleton]
        push_cast
        omega
  · simp only [hfull, if_false, hne]
    exact ⟨gs, pending, h1, h2, h3, h4⟩

theorem GroupInv_foldl (s c : Int) (hc : 0 < c) (rows : List (List Str)) (st : Engine)
    (done : List (List Str)) (hb : BatchInv s st done)
    (h : ∃ gs pending, GroupInv c st gs pending) :
    ∃ gs pending, GroupInv c (rows.foldl (loopBody s c) st) gs pending := by
  induction rows generalizing st done with
  | nil => simpa using h
  | cons r rest ih =>
    obtain ⟨gs, pending, hg⟩ := h
    have hlt : st.insertChunkCount < s := by
      obtain ⟨b1, b2, _, _⟩ := hb
      omega
    exact ih (loopBody s c st r) (done ++ [r]) (BatchInv_step s c st done r hb)
      (GroupInv_step s c hc st r gs pending hlt hg)

theorem afterLoop_groups (c : Int) (hc : 0 < c) (st : Engine) (gs : List Group)
    (pending : List (List record)) (h : GroupInv c st gs pending) :
    afterLoop c st =
      ((gs ++ closeOpen pending) ++ tailGroup st.insertChunk).flatMap Group.writes := by
  obtain ⟨h1, h2, _, _⟩ := h
  have hc0 : c > 0 := hc
  have hw : (if st.chunkCount > 0 then
        st.written ++ [Write.text "commit transaction;\n".toList]
      else st.written) = (gs ++ closeOpen pending).flatMap Group.writes := by
    rw [h1]
    by_cases hp : pending = []
    · have h0 : ¬ st.chunkCount > 0 := by rw [h2, hp]; simp
      simp [h0, hp, openWrites, closeOpen]
    · have h0 : st.chunkCount > 0 := by
        have := List.length_pos.mpr hp
        omega
      simp [h0, hp, openWrites, closeOpen, Group.writes]
  unfold afterLoop
  simp only [hc0, true_and, if_true, hw]
  by_cases hp : st.insertChunk = []
  · simp [hp, tailGroup]
  · have hpos : st.insertChunk.length > 0 := List.length_pos.mpr hp
    simp [hpos, hp, tailGroup, Group.writes]

theorem stmts_closeOpen (pending : List (List record)) :
    (closeOpen pending).flatMap Group.stmts = pending := by
  by_cases h : pending = []
  · simp [closeOpen, h]
  · simp [closeOpen, h]

theorem div_mod_of_chunks (k w p n : Nat) (hp : p < k) (hn : n = w * k + p) :
    (n : Int) / (k : Int) = (w : Int) ∧ (n : Int) % (k : Int) = (p : Int) := by
  have hk : 0 < k := by omega
  have e : n = p + w * k := by omega
  constructor
  · rw [← Int.natCast_div, e, Nat.add_mul_div_right _ _ hk, Nat.div_eq_of_lt hp]
    simp
  · rw [← Int.natCast_mod, e, Nat.add_mul_mod_self_right, Nat.mod_eq_of_lt hp]

/-- With chunk-size `c > 0` and insert-chunk-size `s ≥ 1` the writes of the unevaluated
engine (those of a run in which no call of `createInsertStatement` panics) are a
concatenation of transaction groups: the groups `full` hold the full batches in order, `c`
per group except possibly the last of them, and a trailing partial batch forms one more
group `tail`. -/
theorem readCSVFile_groups (s c : Int) (hs : 1 ≤ s) (hc : 0 < c)
    (rows : List (List Str)) :
    ∃ full tail : List Group,
      readCSVFile s c rows = (full ++ tail).flatMap Group.writes ∧
      markers (readCSVFile s c rows) =
        (full ++ tail).flatMap (fun g => [g.opening, g.closing]) ∧
      (∀ g ∈ full ++ tail, isBegin g.opening ∧ isCommit g.closing ∧
        1 ≤ g.stmts.length ∧ (g.stmts.length : Int) ≤ c) ∧
      ((full ++ tail).flatMap Group.stmts).flatten.map record.values = rows ∧
      (∀ b ∈ full.flatMap Group.stmts, (b.length : Int) = s) ∧
      ((full.flatMap Group.stmts).length : Int) = (rows.length : Int) / s ∧
      (∀ g ∈ full.dropLast, (g.stmts.length : Int) = c) ∧
      ((rows.length : Int) % s = 0 → tail = []) ∧
      ((rows.length : Int) % s ≠ 0 → ∃ g b, tail = [g] ∧ g.stmts = [b] ∧
        (b.length : Int) = (rows.length : Int) % s) := by
  have hb := BatchInv_runLoop s c hs rows
  obtain ⟨gs, pending, hg⟩ : ∃ gs pending, GroupInv c (runLoop s c rows) gs pending := by
    have := GroupInv_foldl s c hc rows Engine.init [] (BatchInv_init s hs)
      ⟨[], [], GroupInv_init c hc⟩
    simpa [runLoop] using this
  have hwrites := afterLoop_groups c hc _ gs pending hg
  obtain ⟨_, b2, b3, b4⟩ := hb
  obtain ⟨g1, _, g3, g4⟩ := hg
  have hbat : batches (runLoop s c rows).written = (gs ++ closeOpen pending).flatMap
      Group.stmts := by
    rw [g1, batches_append, batches_groups, batches_openWrites, List.flatMap_append,
      stmts_closeOpen]
  lift s to ℕ using (by omega : 0 ≤ s) with k
  have hW : ∀ b ∈ batches (runLoop (k : Int) c rows).written, b.length = k :=
    fun b hb => by have := b3 b hb; omega
  have hp : (runLoop (k : Int) c rows).insertChunk.length < k := by omega
  have hn : rows.length = (batches (runLoop (k : Int) c rows).written).length * k +
      (runLoop (k : Int) c rows).insertChunk.length := by
    conv => lhs; rw [← b4]
    rw [List.length_map, List.length_append, length_flatten_of_uniform k _ hW]
  obtain ⟨hdiv, hmod⟩ := div_mod_of_chunks k _ _ _ hp hn
  refine ⟨gs ++ closeOpen pending, tailGroup (runLoop (k : Int) c rows).insertChunk,
    hwrites, ?_, ?_, ?_, ?_, ?_, ?_, ?_, ?_⟩
  · show markers (afterLoop c (runLoop (k : Int) c rows)) = _
    rw [hwrites, markers_groups]
  · intro g hgm
    rcases List.mem_append.mp hgm with hgm | hgm
    · rcases List.mem_append.mp hgm with hgm | hgm
      · obtain ⟨o1, o2, o3⟩ := g4 g hgm
        refine ⟨Or.inl o1, Or.inl o2, ?_, ?_⟩ <;> omega
      · by_cases hpe : pending = []
        · simp [closeOpen, hpe] at hgm
        · simp only [closeOpen, hpe, if_false, List.mem_singleton] at hgm
          have := List.length_pos.mpr hpe
          rw [hgm]
          refine ⟨Or.inl rfl, Or.inr (Or.inl rfl), ?_, ?_⟩
          · exact this
          · show (pending.length : Int) ≤ c
            omega
    · by_cases hpe : (runLoop (k : Int) c rows).insertChunk = []
      · simp [tailGroup, hpe] at hgm
      · simp only [tailGroup, hpe, if_false, List.mem_singleton] at hgm
        rw [hgm]
        refine ⟨Or.inr rfl, Or.inr (Or.inr rfl), ?_, ?_⟩
        · simp
        · show (([(runLoop (k : Int) c rows).insertChunk] : List (List record)).length : Int) ≤ c
          simp only [List.length_singleton]
          push_cast
          omega
  · rw [List.flatMap_append, ← hbat]
    conv => rhs; rw [← b4]
    congr 1
    by_cases hpe : (runLoop (k : Int) c rows).insertChunk = []
    · simp [tailGroup, hpe]
    · simp [tailGroup, hpe]
  · intro b hbm
    rw [← hbat] at hbm
    exact b3 b hbm
  · rw [← hbat, hdiv]
  · intro g hgm
    by_cases hpe : pending = []
    · simp only [closeOpen, hpe, if_true, List.append_nil] at hgm
      exact (g4 g (List.mem_of_mem_dropLast hgm)).2.2
    · simp only [closeOpen, hpe, if_false, List.dropLast_concat] at hgm
      exact (g4 g hgm).2.2
  · intro h0
    rw [hmod] at h0
    have : (runLoop (k : Int) c rows).insertChunk = [] :=
      List.length_eq_zero.mp (by omega)
    simp [tailGroup, this]
  · intro h0
    rw [hmod] at h0
    have hpe : (runLoop (k : Int) c rows).insertChunk ≠ [] := by
      intro e
      rw [e] at h0
      simp at h0
    refine ⟨{ opening := "\nbegin transaction;".toList,
              stmts := [(runLoop (k : Int) c rows).insertChunk],
              closing := "\ncommit transaction;\n".toList },
      (runLoop (k : Int) c rows).insertChunk, ?_, rfl, hmod.symm⟩
    simp [tailGroup, hpe]

theorem columnsLoop_isSome (columns : List (List Str)) (insert comma : Str)
    (hcols : ∀ col ∈ columns, 2 ≤ col.length) :
    ∃ out, columnsLoop columns insert comma = some out := by
  induction columns generalizing insert comma with
  | nil => exact ⟨insert, rfl⟩
  | cons col rest ih =>
    have h0 : 0 < col.length := by have := hcols col (by simp); omega
    have hrest : ∀ x ∈ rest, 2 ≤ x.length := fun x hx => hcols x (List.mem_cons_of_mem _ hx)
    simp only [columnsLoop, Option.bind_eq_bind, List.getElem?_eq_getElem h0, Option.some_bind]
    exact ih _ _ hrest

theorem valuesLoop_isSome (values : List Str) (columns : List (List Str)) (j : Nat)
    (insert comma : Str) (hcols : ∀ col ∈ columns, 2 ≤ col.length)
    (hj : j + columns.length ≤ values.length) :
    ∃ out, valuesLoop values columns j insert comma = some out := by
  induction columns generalizing j insert comma with
  | nil => exact ⟨insert, rfl⟩
  | cons col rest ih =>
    have h1 : 1 < col.length := by have := hcols col (by simp); omega
    have hrest : ∀ x ∈ rest, 2 ≤ x.length := fun x hx => hcols x (List.mem_cons_of_mem _ hx)
    have hjl : j < values.length := by simp at hj; omega
    have hj2 : j + 1 + rest.length ≤ values.length := by simp at hj; omega
    simp only [valuesLoop, Option.bind_eq_bind, List.getElem?_eq_getElem h1,
      List.getElem?_eq_getElem hjl, Option.some_bind]
    exact ih _ _ _ hrest hj2

theorem recordsLoop_isSome (columns : List (List Str)) (n : Nat) (records : List record)
    (i : Nat) (insert : Str) (hcols : ∀ col ∈ columns, 2 ≤ col.length)
    (hrows : ∀ r ∈ records, columns.length ≤ r.values.length) :
    ∃ out, recordsLoop columns n records i insert = some out := by
  induction records generalizing i insert with
  | nil => exact ⟨insert, rfl⟩
  | cons r rest ih =>
    have hr : 0 + columns.length ≤ r.values.length := by
      have := hrows r (by simp)
      omega
    have hrest : ∀ x ∈ rest, columns.length ≤ x.values.length :=
      fun x hx => hrows x (List.mem_cons_of_mem _ hx)
    obtain ⟨v, hv⟩ := valuesLoop_isSome r.values columns 0 (insert ++ "  (".toList) [] hcols hr
    simp only [recordsLoop, Option.bind_eq_bind, hv, Option.some_bind]
    exact ih _ _ hrest

/-- `createInsertStatement` returns a statement when every column entry has a name and a
kind and every row has at least as many fields as there are columns. -/
theorem createInsertStatement_isSome (records : List record) (table : Str)
    (columns : List (List Str)) (hcols : ∀ col ∈ columns, 2 ≤ col.length)
    (hrows : ∀ r ∈ records, columns.length ≤ r.values.length) :
    ∃ out, createInsertStatement records table columns = some out := by
  unfold createInsertStatement
  split
  · exact ⟨[], rfl⟩
  · obtain ⟨a, ha⟩ := columnsLoop_isSome columns
      ("insert into".toList ++ " ".toList ++ table ++ " (".toList) [] hcols
    obtain ⟨b, hb⟩ := recordsLoop_isSome columns records.length records 0
      (a ++ ") values \n".toList) hcols hrows
    simp only [Option.bind_eq_bind, ha, Option.some_bind, hb]
    exact ⟨_, rfl⟩

theorem processColumns_entry_length (header : List Str) :
    ∀ col ∈ processColumns header, 2 ≤ col.length := by
  intro col hcol
  simp only [processColumns, List.mem_map] at hcol
  obtain ⟨token, _, h⟩ := hcol
  split at h <;> (rw [← h]; simp)

theorem length_processColumns (header : List Str) :
    (processColumns header).length = header.length := by
  simp [processColumns]

/-- C4: with insert-chunk-size `2`, chunk-size `4` and five rows `r1 .. r5`, each with as many
fields as the header has columns, the engine builds exactly the three statements of the
batches `[r1, r2]`, `[r3, r4]` and `[r5]`, and the text written is `begin transaction;` +
newline, `S [r1, r2]`, `S [r3, r4]`, `commit transaction;` + newline, newline +
`begin transaction;`, `S [r5]`, newline + `commit transaction;` + newline, where `S` is
`createInsertStatement`. -/
theorem readCSVFile_five_rows (table : Str) (header : List Str) (r1 r2 r3 r4 r5 : List Str)
    (h1 : r1.length = header.length) (h2 : r2.length = header.length)
    (h3 : r3.length = header.length) (h4 : r4.length = header.length)
    (h5 : r5.length = header.length) :
    batches (readCSVFile 2 4 [r1, r2, r3, r4, r5]) =
      [[{ values := r1 }, { values := r2 }], [{ values := r3 }, { values := r4 }],
       [{ values := r5 }]] ∧
    markers (readCSVFile 2 4 [r1, r2, r3, r4, r5]) =
      ["begin transaction;\n".toList, "commit transaction;\n".toList,
       "\nbegin transaction;".toList, "\ncommit transaction;\n".toList] ∧
    ∃ s12 s34 s5 : Str,
      createInsertStatement [{ values := r1 }, { values := r2 }] table
        (processColumns header) = some s12 ∧
      createInsertStatement [{ values := r3 }, { values := r4 }] table
        (processColumns header) = some s34 ∧
      createInsertStatement [{ values := r5 }] table (processColumns header) = some s5 ∧
      sqlText table (processColumns header) (readCSVFile 2 4 [r1, r2, r3, r4, r5]) =
        some ("begin transaction;\n".toList ++ s12 ++ s34 ++ "commit transaction;\n".toList ++
          "\nbegin transaction;".toList ++ s5 ++ "\ncommit transaction;\n".toList) := by
  have htrace : readCSVFile 2 4 [r1, r2, r3, r4, r5] =
      [Write.text "begin transaction;\n".toList,
       Write.insert [{ values := r1 }, { values := r2 }],
       Write.insert [{ values := r3 }, { values := r4 }],
       Write.text "commit transaction;\n".toList,
       Write.text "\nbegin transaction;".toList,
       Write.insert [{ values := r5 }],
       Write.text "\ncommit transaction;\n".toList] := by
    simp [readCSVFile, runLoop, loopBody, afterLoop, Engine.init]
  have hcols := processColumns_entry_length header
  have hl := length_processColumns header
  obtain ⟨s12, e12⟩ := createInsertStatement_isSome [{ values := r1 }, { values := r2 }] table
    (processColumns header) hcols (by
      intro r hr
      simp only [List.mem_cons, List.mem_singleton, List.not_mem_nil, or_false] at hr
      rcases hr with hr | hr <;> (rw [hr, hl]; simp only []; omega))
  obtain ⟨s34, e34⟩ := createInsertStatement_isSome [{ values := r3 }, { values := r4 }] table
    (processColumns header) hcols (by
      intro r hr
      simp only [List.mem_cons, List.mem_singleton, List.not_mem_nil, or_false] at hr
      rcases hr with hr | hr <;> (rw [hr, hl]; simp only []; omega))
  obtain ⟨s5, e5⟩ := createInsertStatement_isSome [{ values := r5 }] table
    (processColumns header) hcols (by
      intro r hr
      simp only [List.mem_singleton] at hr
      rw [hr, hl]; simp only []; omega)
  refine ⟨?_, ?_, s12, s34, s5, e12, e34, e5, ?_⟩
  · rw [htrace]; rfl
  · rw [htrace]; rfl
  · rw [htrace]
    simp [sqlText, Write.render, e12, e34, e5]

/-! ## The engine on five rows with insert-chunk-size 2 -/

/-- Witness of C2: five rows, insert-chunk-size `2`, chunk-size `0`. -/
theorem readCSVFile_without_transactions_witness :
    (1 : Int) ≤ 2 ∧
    readCSVFile 2 0 fiveRows =
      [Write.insert [{ values := ["1".toList] }, { values := ["2".toList] }],
       Write.insert [{ values := ["3".toList] }, { values := ["4".toList] }],
       Write.insert [{ values := ["5".toList] }]] ∧
    markers (readCSVFile 2 0 fiveRows) = [] ∧
    sqlText "t".toList [["a".toList, "number".toList]] (readCSVFile 2 0 fiveRows) =
      concatStatements "t".toList [["a".toList, "number".toList]]
        (batches (readCSVFile 2 0 fiveRows)) :=
  ⟨by decide, by decide,
   (readCSVFile_without_transactions 2 (by decide) fiveRows "t".toList
      [["a".toList, "number".toList]]).1,
   (readCSVFile_without_transactions 2 (by decide) fiveRows "t".toList
      [["a".toList, "number".toList]]).2.2.1⟩

set_option maxRecDepth 10000 in
/-- Witness of C4: the rows `1 .. 5` for the header `a(number)` and the table `t`. -/
theorem readCSVFile_five_rows_witness :
    batches (readCSVFile 2 4 fiveRows) =
      [[{ values := ["1".toList] }, { values := ["2".toList] }],
       [{ values := ["3".toList] }, { values := ["4".toList] }],
       [{ values := ["5".toList] }]] ∧
    sqlText "t".toList (processColumns ["a(number)".toList]) (readCSVFile 2 4 fiveRows) =
      some ("begin transaction;\n".toList ++
        "insert into t ( a) values \n  ( 1),\n  ( 2);\n".toList ++
        "insert into t ( a) values \n  ( 3),\n  ( 4);\n".toList ++
        "commit transaction;\n".toList ++ "\nbegin transaction;".toList ++
        "insert into t ( a) values \n  ( 5);\n".toList ++
        "\ncommit transaction;\n".toList) :=
  ⟨(readCSVFile_five_rows "t".toList ["a(number)".toList] ["1".toList] ["2".toList]
      ["3".toList] ["4".toList] ["5".toList] (by decide) (by decide) (by decide) (by decide)
      (by decide)).1,
   by decide⟩

/-! ## Insert statement builder: rendering, failure, extra fields -/

theorem columnsLoop_items (cols : List (Str × Str)) (insert comma : Str) :
    columnsLoop (cols.map specEntry) insert comma =
      some (insert ++ itemsText comma (cols.map Prod.fst)) := by
  cases cols with
  | nil => simp [columnsLoop, itemsText]
  | cons c rest =>
    have := columnsLoop_entries rest (insert ++ comma ++ " ".toList ++ c.1)
    simp only [List.map_cons, columnsLoop, specEntry, List.getElem?_cons_zero,
      Option.bind_eq_bind, Option.some_bind, itemsText] at this ⊢
    rw [this]
    simp

theorem valuesLoop_items (row : List Str) (cols : List (Str × Str)) (insert comma : Str)
    (h : cols.length ≤ row.length) :
    valuesLoop row (cols.map specEntry) 0 insert comma =
      some (insert ++ itemsText comma (List.zipWith renderValue (cols.map Prod.snd) row)) := by
  cases cols with
  | nil => simp [valuesLoop, itemsText]
  | cons c rest =>
    have h0 : 0 < row.length := by simp at h; omega
    have hrest : 0 + 1 + rest.length ≤ row.length := by simp at h; omega
    have e : row = row[0] :: row.drop 1 := by
      have := List.drop_eq_getElem_cons h0
      simpa using this
    have := valuesLoop_entries row rest (0 + 1) (if c.2 = "text".toList then
        insert ++ comma ++ " ".toList ++ [quote] ++ sanitize row[0] ++ [quote]
      else insert ++ comma ++ " ".toList ++ row[0]) hrest
    simp only [List.map_cons, valuesLoop, specEntry, List.getElem?_cons_succ,
      List.getElem?_cons_zero, Option.bind_eq_bind, Option.some_bind,
      List.getElem?_eq_getElem h0] at this ⊢
    rw [this]
    conv => rhs; rw [e]
    simp only [List.zipWith_cons_cons, itemsText]
    unfold renderValue
    split <;> simp

theorem recordsLoop_rows (cols : List (Str × Str)) (n : Nat) (batch : List (List Str))
    (i : Nat) (insert : Str) (hn : i + batch.length = n)
    (hrows : ∀ row ∈ batch, cols.length ≤ row.length) :
    recordsLoop (cols.map specEntry) n (batch.map record.mk) i insert =
      some (insert ++ rowsText (batch.map (List.zipWith renderValue (cols.map Prod.snd)))) := by
  induction batch generalizing i insert with
  | nil => simp [recordsLoop, rowsText]
  | cons row rest ih =>
    have hrow : cols.length ≤ row.length := hrows row (by simp)
    simp only [List.map_cons, recordsLoop, Option.bind_eq_bind,
      valuesLoop_items row cols _ _ hrow, Option.some_bind]
    cases rest with
    | nil =>
      have hi : ¬ ((i : Int) < (n : Int) - 1) := by simp at hn; omega
      simp [hi, recordsLoop, rowsText]
    | cons row2 rest2 =>
      have hi : (i : Int) < (n : Int) - 1 := by simp at hn; omega
      have hrows2 : ∀ r ∈ row2 :: rest2, cols.length ≤ r.length :=
        fun r hr => hrows r (List.mem_cons_of_mem _ hr)
      have hn2 : i + 1 + (row2 :: rest2).length = n := by simp at hn ⊢; omega
      rw [if_pos hi, ih (i + 1) _ hn2 hrows2]
      simp [rowsText]

/-- The statement is determined by the table, the column names and the rendered values. -/
theorem createInsertStatement_rendered (table : Str) (cols : List (Str × Str))
    (batch : List (List Str)) (hb : batch ≠ [])
    (hrows : ∀ row ∈ batch, cols.length ≤ row.length) :
    createInsertStatement (batch.map record.mk) table (cols.map specEntry) =
      some ("insert into".toList ++ " ".toList ++ table ++ " (".toList ++
        itemsText [] (cols.map Prod.fst) ++ ") values \n".toList ++
        rowsText (batch.map (List.zipWith renderValue (cols.map Prod.snd))) ++
        ");\n".toList) := by
  have hlen : ¬ (batch.map record.mk).length = 0 := by
    simp only [List.length_map]
    exact fun e => hb (List.length_eq_zero.mp e)
  simp only [createInsertStatement, hlen, if_false, Option.bind_eq_bind,
    columnsLoop_items, Option.some_bind,
    recordsLoop_rows cols (batch.map record.mk).length batch 0 _ (by simp) hrows]

theorem renderValue_of_ne_text (kind v : Str) (h : kind ≠ "text".toList) :
    renderValue kind v = v := by
  unfold renderValue
  rw [if_neg h]

theorem zipWith_renderValue_renderRow (kinds kinds' : List Str) (row : List Str)
    (hlen : kinds'.length = kinds.length) (hrow : kinds.length ≤ row.length)
    (hk : ∀ k ∈ kinds', k ≠ "text".toList) :
    List.zipWith renderValue kinds' (List.zipWith renderValue kinds row ++
        row.drop kinds.length) =
      List.zipWith renderValue kinds row := by
  induction kinds generalizing kinds' row with
  | nil =>
    have : kinds' = [] := List.length_eq_zero.mp (by simpa using hlen)
    simp [this]
  | cons k ks ih =>
    cases kinds' with
    | nil => simp at hlen
    | cons k' ks' =>
      cases row with
      | nil => simp at hrow
      | cons v vs =>
        have hk' : k' ≠ "text".toList := hk k' (by simp)
        have hks' : ∀ x ∈ ks', x ≠ "text".toList :=
          fun x hx => hk x (List.mem_cons_of_mem _ hx)
        have := ih ks' vs (by simpa using hlen) (by simpa using hrow) hks'
        simp only [List.zipWith_cons_cons, List.cons_append, List.length_cons,
          List.drop_succ_cons, renderValue_of_ne_text _ _ hk', this]

theorem zipWith_take_length (f : Str → Str → Str) (kinds row : List Str) :
    List.zipWith f kinds (row.take kinds.length) = List.zipWith f kinds row := by
  induction kinds generalizing row with
  | nil => simp
  | cons k ks ih =>
    cases row with
    | nil => simp
    | cons v vs => simp [ih vs]

theorem specEntry_length (cols : List (Str × Str)) :
    ∀ col ∈ cols.map specEntry, 2 ≤ col.length := by
  intro col hcol
  obtain ⟨c, _, hc⟩ := List.mem_map.mp hcol
  rw [← hc]
  simp [specEntry]

theorem valuesLoop_none (values : List Str) (columns : List (List Str)) (j : Nat)
    (insert comma : Str) (hj : j ≤ values.length) (h : values.length < j + columns.length) :
    valuesLoop values columns j insert comma = none := by
  induction columns generalizing j insert comma with
  | nil => simp at h; omega
  | cons col rest ih =>
    simp only [valuesLoop, Option.bind_eq_bind]
    cases hk : col[1]? with
    | none => rfl
    | some kind =>
      by_cases hlt : j < values.length
      · simp only [Option.some_bind, List.getElem?_eq_getElem hlt]
        exact ih (j + 1) _ _ hlt (by simp at h; omega)
      · have hnone : values[j]? = none := List.getElem?_eq_none (by omega)
        simp only [Option.some_bind, hnone, Option.none_bind]

theorem recordsLoop_none (columns : List (List Str)) (n : Nat) (records : List record)
    (i : Nat) (insert : Str) (h : ∃ r ∈ records, r.values.length < columns.length) :
    recordsLoop columns n records i insert = none := by
  induction records generalizing i insert with
  | nil =>
    obtain ⟨r, hr, _⟩ := h
    simp at hr
  | cons r rest ih =>
    simp only [recordsLoop, Option.bind_eq_bind]
    by_cases hshort : r.values.length < columns.length
    · rw [valuesLoop_none r.values columns 0 _ _ (Nat.zero_le _) (by omega)]
      rfl
    · cases hv : valuesLoop r.values columns 0 (insert ++ "  (".toList) [] with
      | none => rfl
      | some v =>
        simp only [Option.some_bind]
        apply ih
        obtain ⟨x, hx, hxs⟩ := h
        rcases List.mem_cons.mp hx with e | e
        · rw [e] at hxs
          exact absurd hxs hshort
        · exact ⟨x, e, hxs⟩

theorem createInsertStatement_none (records : List record) (table : Str)
    (cols : List (Str × Str)) (hne : records ≠ [])
    (h : ∃ r ∈ records, r.values.length < cols.length) :
    createInsertStatement records table (cols.map specEntry) = none := by
  have hlen : ¬ records.length = 0 := fun e => hne (List.length_eq_zero.mp e)
  have h' : ∃ r ∈ records, r.values.length < (cols.map specEntry).length := by
    simpa using h
  simp only [createInsertStatement, hlen, if_false, Option.bind_eq_bind, columnsLoop_items,
    Option.some_bind, recordsLoop_none _ _ records 0 _ h', Option.none_bind]

/-- C11: quoting is decided per column by equality of the kind with `text`: on a non-empty
batch whose rows have at least as many fields as there are columns, `createInsertStatement`
returns the same statement as on the batch in which each field is replaced by its
rendering (`renderValue`: quoted and sanitized for kind `text`, verbatim otherwise) under
columns of the same names whose kinds are all different from `text`.  One row with one text
column holding `wendy's` gives output containing `'wendy''s'`, and one row with one column of
a kind other than `text` gives the field unquoted and unescaped. -/
theorem createInsertStatement_quoting (table : Str) (cols cols' : List (Str × Str))
    (batch : List (List Str)) (hb : batch ≠ [])
    (hrows : ∀ row ∈ batch, cols.length ≤ row.length)
    (hnames : cols'.map Prod.fst = cols.map Prod.fst)
    (hkinds : ∀ c ∈ cols', c.2 ≠ "text".toList) :
    (createInsertStatement (batch.map record.mk) table (cols.map specEntry) =
      createInsertStatement ((batch.map (renderRow cols)).map record.mk) table
        (cols'.map specEntry)) ∧
    (∃ out, createInsertStatement (batch.map record.mk) table (cols.map specEntry) =
      some out) ∧
    (∀ t name : Str, ∃ pre post : Str,
      createInsertStatement [{ values := ["wendy's".toList] }] t
          [specEntry (name, "text".toList)] =
        some (pre ++ "'wendy''s'".toList ++ post)) ∧
    (∀ t name kind v : Str, kind ≠ "text".toList →
      createInsertStatement [{ values := [v] }] t [specEntry (name, kind)] =
        some ("insert into ".toList ++ t ++ " ( ".toList ++ name ++
          ") values \n  ( ".toList ++ v ++ ");\n".toList)) := by
  have hlen : cols'.length = cols.length := by
    have := congrArg List.length hnames
    simpa using this
  have hklen : (cols'.map Prod.snd).length = (cols.map Prod.snd).length := by
    simpa using hlen
  have hrows' : ∀ row ∈ batch.map (renderRow cols), cols'.length ≤ row.length := by
    intro row hr
    obtain ⟨r0, hr0, e⟩ := List.mem_map.mp hr
    have := hrows r0 hr0
    rw [← e, hlen]
    simp only [renderRow, List.length_append, List.length_zipWith, List.length_map,
      List.length_drop]
    omega
  have hrender : (batch.map (renderRow cols)).map
        (List.zipWith renderValue (cols'.map Prod.snd)) =
      batch.map (List.zipWith renderValue (cols.map Prod.snd)) := by
    rw [List.map_map]
    apply List.map_congr_left
    intro row hr
    have h1 := hrows row hr
    have h2 := zipWith_renderValue_renderRow (cols.map Prod.snd) (cols'.map Prod.snd) row
      hklen (by simpa using h1)
      (fun k hk => by
        obtain ⟨c, hc, e⟩ := List.mem_map.mp hk
        rw [← e]
        exact hkinds c hc)
    simpa [renderRow] using h2
  refine ⟨?_, ⟨_, createInsertStatement_rendered table cols batch hb hrows⟩, ?_, ?_⟩
  · rw [createInsertStatement_rendered table cols batch hb hrows,
      createInsertStatement_rendered table cols' (batch.map (renderRow cols))
        (by simpa using hb) hrows', hnames, hrender]
  · intro t name
    have h := createInsertStatement_rendered t [(name, "text".toList)] [["wendy's".toList]]
      (by simp) (by simp)
    refine ⟨"insert into".toList ++ " ".toList ++ t ++ " (".toList ++
      itemsText [] [name] ++ ") values \n".toList ++ "  ( ".toList, ");\n".toList, ?_⟩
    have e : renderValue "text".toList "wendy's".toList = "'wendy''s'".toList := by decide
    simp only [List.map_cons, List.map_nil] at h
    rw [h]
    simp only [List.zipWith_cons_cons, List.zipWith_nil_left, rowsText, itemsText, e]
    simp
  · intro t name kind v hk
    have h := createInsertStatement_rendered t [(name, kind)] [[v]] (by simp) (by simp)
    simp only [List.map_cons, List.map_nil] at h
    rw [h]
    simp only [List.zipWith_cons_cons, List.zipWith_nil_left, rowsText, itemsText,
      renderValue_of_ne_text kind v hk]
    simp

/-- Witness of C11: a text column and a number column, rendered by hand under kinds `raw`. -/
theorem createInsertStatement_quoting_witness :
    createInsertStatement
        ([["wendy's".toList, "3".toList]].map record.mk) "t".toList
        ([("a".toList, "text".toList), ("b".toList, "number".toList)].map specEntry) =
      createInsertStatement
        (([["wendy's".toList, "3".toList]].map
          (renderRow [("a".toList, "text".toList), ("b".toList, "number".toList)])).map
          record.mk) "t".toList
        ([("a".toList, "raw".toList), ("b".toList, "raw".toList)].map specEntry) ∧
    [["wendy's".toList, "3".toList]].map
        (renderRow [("a".toList, "text".toList), ("b".toList, "number".toList)]) =
      [["'wendy''s'".toList, "3".toList]] ∧
    createInsertStatement [{ values := ["wendy's".toList] }] "t".toList
        [specEntry ("a".toList, "TEXT".toList)] =
      some ("insert into ".toList ++ "t".toList ++ " ( ".toList ++ "a".toList ++
        ") values \n  ( ".toList ++ "wendy's".toList ++ ");\n".toList) :=
  ⟨(createInsertStatement_quoting "t".toList
      [("a".toList, "text".toList), ("b".toList, "number".toList)]
      [("a".toList, "raw".toList), ("b".toList, "raw".toList)]
      [["wendy's".toList, "3".toList]] (by decide) (by decide) (by decide) (by decide)).1,
   by decide,
   (createInsertStatement_quoting "t".toList
      [("a".toList, "text".toList), ("b".toList, "number".toList)]
      [("a".toList, "raw".toList), ("b".toList, "raw".toList)]
      [["wendy's".toList, "3".toList]] (by decide) (by decide) (by decide)
      (by decide)).2.2.2 "t".toList "a".toList "TEXT".toList "wendy's".toList (by decide)⟩

/-- C12: for column specs `(name, kind)`, `createInsertStatement` fails (index out of range
on the values of a row) if and only if the batch is non-empty and at least one of its rows
has fewer fields than there are column specs; in every other case it returns a string. -/
theorem createInsertStatement_fails_iff (records : List record) (table : Str)
    (cols : List (Str × Str)) :
    (createInsertStatement records table (cols.map specEntry) = none ↔
      records ≠ [] ∧ ∃ r ∈ records, r.values.length < cols.length) ∧
    (¬ (records ≠ [] ∧ ∃ r ∈ records, r.values.length < cols.length) →
      ∃ out, createInsertStatement records table (cols.map specEntry) = some out) := by
  have hsome : ¬ (records ≠ [] ∧ ∃ r ∈ records, r.values.length < cols.length) →
      ∃ out, createInsertStatement records table (cols.map specEntry) = some out := by
    intro hn
    by_cases he : records = []
    · exact ⟨[], by rw [he]; rfl⟩
    · apply createInsertStatement_isSome records table _ (specEntry_length cols)
      intro r hr
      by_contra hlt
      exact hn ⟨he, r, hr, by simpa using hlt⟩
  refine ⟨⟨?_, fun h => createInsertStatement_none records table cols h.1 h.2⟩, hsome⟩
  intro hnone
  by_contra hn
  obtain ⟨out, ho⟩ := hsome hn
  rw [ho] at hnone
  exact Option.noConfusion hnone

/-- Witness of C12: a row with one field for two columns fails, a row with two fields
returns. -/
theorem createInsertStatement_fails_iff_witness :
    createInsertStatement [{ values := ["1".toList, "2".toList] }, { values := ["3".toList] }]
        "t".toList ([("a".toList, "text".toList), ("b".toList, "number".toList)].map
          specEntry) = none ∧
    ∃ out, createInsertStatement [{ values := ["1".toList, "2".toList] }] "t".toList
        ([("a".toList, "text".toList), ("b".toList, "number".toList)].map specEntry) =
      some out :=
  ⟨(createInsertStatement_fails_iff
      [{ values := ["1".toList, "2".toList] }, { values := ["3".toList] }] "t".toList
      [("a".toList, "text".toList), ("b".toList, "number".toList)]).1.2
      ⟨by decide, { values := ["3".toList] }, by decide, by decide⟩,
   (createInsertStatement_fails_iff [{ values := ["1".toList, "2".toList] }] "t".toList
      [("a".toList, "text".toList), ("b".toList, "number".toList)]).2 (by decide)⟩

/-- C19: fields beyond the column count are ignored: on a non-empty batch whose rows all
have at least `m` fields, `m` the number of column specs, `createInsertStatement` returns
a statement, and it is the statement of the batch whose rows are cut to their first `m`
fields. -/
theorem createInsertStatement_ignores_extra_fields (table : Str) (cols : List (Str × Str))
    (batch : List (List Str)) (hb : batch ≠ [])
    (hrows : ∀ row ∈ batch, cols.length ≤ row.length) :
    (createInsertStatement (batch.map record.mk) table (cols.map specEntry) =
      createInsertStatement ((batch.map (List.take cols.length)).map record.mk) table
        (cols.map specEntry)) ∧
    ∃ out, createInsertStatement (batch.map record.mk) table (cols.map specEntry) =
      some out := by
  have hrows' : ∀ row ∈ batch.map (List.take cols.length), cols.length ≤ row.length := by
    intro row hr
    obtain ⟨r0, hr0, e⟩ := List.mem_map.mp hr
    have := hrows r0 hr0
    rw [← e, List.length_take]
    omega
  have hcut : (batch.map (List.take cols.length)).map
        (List.zipWith renderValue (cols.map Prod.snd)) =
      batch.map (List.zipWith renderValue (cols.map Prod.snd)) := by
    rw [List.map_map]
    apply List.map_congr_left
    intro row _
    have := zipWith_take_length renderValue (cols.map Prod.snd) row
    simpa using this
  refine ⟨?_, ⟨_, createInsertStatement_rendered table cols batch hb hrows⟩⟩
  rw [createInsertStatement_rendered table cols batch hb hrows,
    createInsertStatement_rendered table cols (batch.map (List.take cols.length))
      (by simpa using hb) hrows', hcut]

/-- Witness of C19: a row with three fields for two columns. -/
theorem createInsertStatement_ignores_extra_fields_witness :
    createInsertStatement ([["x".toList, "4".toList, "z".toList]].map record.mk) "t".toList
        ([("a".toList, "text".toList), ("b".toList, "number".toList)].map specEntry) =
      createInsertStatement
        (([["x".toList, "4".toList, "z".toList]].map (List.take 2)).map record.mk) "t".toList
        ([("a".toList, "text".toList), ("b".toList, "number".toList)].map specEntry) ∧
    createInsertStatement ([["x".toList, "4".toList, "z".toList]].map record.mk) "t".toList
        ([("a".toList, "text".toList), ("b".toList, "number".toList)].map specEntry) =
      some "insert into t ( a, b) values \n  ( 'x', 4);\n".toList :=
  ⟨(createInsertStatement_ignores_extra_fields "t".toList
      [("a".toList, "text".toList), ("b".toList, "number".toList)]
      [["x".toList, "4".toList, "z".toList]] (by decide) (by decide)).1,
   by decide⟩

/-! ## Table name and output path -/

theorem isWordChar_of_isIdentStart (c : Char) (h : isIdentStart c = true) :
    isWordChar c = true := by
  simp only [isIdentStart, Bool.or_eq_true, Bool.and_eq_true] at h
  simp only [isWordChar, Bool.or_eq_true, Bool.and_eq_true]
  rcases h with (h | h) | h
  · exact Or.inl (Or.inr h)
  · exact Or.inl (Or.inl (Or.inr h))
  · exact Or.inr h

theorem length_of_matchExtension (l : Str) (h : matchExtension l = true) : l.length = 4 := by
  match l with
  | [] => simp [matchExtension] at h
  | [_] => simp [matchExtension] at h
  | [_, _] => simp [matchExtension] at h
  | [_, _, _] => simp [matchExtension] at h
  | [_, _, _, _] => rfl
  | _ :: _ :: _ :: _ :: _ :: _ => simp [matchExtension] at h

theorem matchIdentRest_sound (acc rest g : Str) (h : matchIdentRest acc rest = some g) :
    ∃ w t4, rest = w ++ t4 ∧ g = acc ++ w ∧ (∀ c ∈ w, isWordChar c = true) ∧
      t4.length = 4 := by
  induction rest generalizing acc with
  | nil => simp [matchIdentRest, matchExtension] at h
  | cons c t ih =>
    have hstop : (if matchExtension (c :: t) then some acc else none) = some g →
        ∃ w t4, c :: t = w ++ t4 ∧ g = acc ++ w ∧ (∀ x ∈ w, isWordChar x = true) ∧
          t4.length = 4 := by
      intro hs
      by_cases hm : matchExtension (c :: t) = true
      · simp only [hm, if_true, Option.some.injEq] at hs
        exact ⟨[], c :: t, rfl, by simp [hs], by simp, length_of_matchExtension _ hm⟩
      · simp [hm] at hs
    by_cases hw : isWordChar c = true
    · simp only [matchIdentRest, hw, if_true] at h
      cases hr : matchIdentRest (acc ++ [c]) t with
      | some g2 =>
        rw [hr] at h
        simp only [Option.some.injEq] at h
        subst h
        obtain ⟨w, t4, e1, e2, e3, e4⟩ := ih (acc ++ [c]) hr
        refine ⟨c :: w, t4, by simp [e1], by rw [e2]; simp, ?_, e4⟩
        intro x hx
        rcases List.mem_cons.mp hx with e | e
        · rw [e]; exact hw
        · exact e3 x e
      | none =>
        rw [hr] at h
        exact hstop h
    · simp only [matchIdentRest, hw] at h
      exact hstop h

theorem matchGroup_sound (rest g : Str) (h : matchGroup rest = some g) :
    ∃ t4, rest = g ++ t4 ∧ g ≠ [] ∧ (∀ c ∈ g, isWordChar c = true) ∧ t4.length = 4 := by
  cases rest with
  | nil => simp [matchGroup] at h
  | cons c t =>
    by_cases hs : isIdentStart c = true
    · simp only [matchGroup, hs, if_true] at h
      obtain ⟨w, t4, e1, e2, e3, e4⟩ := matchIdentRest_sound [c] t g h
      refine ⟨t4, by rw [e2, e1]; simp, by rw [e2]; simp, ?_, e4⟩
      intro x hx
      rw [e2] at hx
      rcases List.mem_append.mp hx with e | e
      · rw [List.mem_singleton.mp e]
        exact isWordChar_of_isIdentStart c hs
      · exact e3 x e
    · simp [matchGroup, hs] at h

theorem matchNonword_sound (rest g : Str) (h : matchNonword rest = some g) :
    ∃ nw t4, rest = nw ++ g ++ t4 ∧ (∀ c ∈ nw, isWordChar c = false) ∧ g ≠ [] ∧
      (∀ c ∈ g, isWordChar c = true) ∧ t4.length = 4 := by
  induction rest with
  | nil => simp [matchNonword, matchGroup] at h
  | cons c t ih =>
    have hgroup : matchGroup (c :: t) = some g →
        ∃ nw t4, c :: t = nw ++ g ++ t4 ∧ (∀ x ∈ nw, isWordChar x = false) ∧ g ≠ [] ∧
          (∀ x ∈ g, isWordChar x = true) ∧ t4.length = 4 := by
      intro hg
      obtain ⟨t4, e1, e2, e3, e4⟩ := matchGroup_sound _ _ hg
      exact ⟨[], t4, by simpa using e1, by simp, e2, e3, e4⟩
    by_cases hw : isWordChar c = true
    · simp only [matchNonword, hw, Bool.not_true, Bool.false_eq_true, if_false] at h
      exact hgroup h
    · have hw2 : isWordChar c = false := by simpa using hw
      simp only [matchNonword, hw2, Bool.not_false, if_true] at h
      cases hr : matchNonword t with
      | some g2 =>
        rw [hr] at h
        simp only [Option.some.injEq] at h
        subst h
        obtain ⟨nw, t4, e1, e2, e3, e4, e5⟩ := ih hr
        refine ⟨c :: nw, t4, by simp [e1], ?_, e3, e4, e5⟩
        intro x hx
        rcases List.mem_cons.mp hx with e | e
        · rw [e]; exact hw2
        · exact e2 x e
      | none =>
        rw [hr] at h
        exact hgroup h

theorem matchExtension_dot (ext : Str) (he : ext.length = 3)
    (hc : ∀ c ∈ ext, isCsvChar c = true) : matchExtension ('.' :: ext) = true := by
  match ext, he, hc with
  | [b, c, d], _, hc =>
    have hb := hc b (by simp)
    have hc2 := hc c (by simp)
    have hd := hc d (by simp)
    have hdot : ('.' != lineFeed) = true := by decide
    simp [matchExtension, hb, hc2, hd, hdot]

theorem matchIdentRest_complete (acc w ext : Str) (hw : ∀ c ∈ w, isWordChar c = true)
    (hext : matchExtension ('.' :: ext) = true) :
    matchIdentRest acc (w ++ '.' :: ext) = some (acc ++ w) := by
  induction w generalizing acc with
  | nil =>
    have hdot : isWordChar '.' = false := by decide
    simp [matchIdentRest, hdot, hext]
  | cons c t ih =>
    have hc : isWordChar c = true := hw c (by simp)
    have ht : ∀ x ∈ t, isWordChar x = true := fun x hx => hw x (List.mem_cons_of_mem _ hx)
    have e : (c :: t) ++ '.' :: ext = c :: (t ++ '.' :: ext) := rfl
    rw [e]
    simp only [matchIdentRest, hc, if_true, ih (acc ++ [c]) ht]
    simp

theorem matchNonword_identifier (name ext : Str) (hn : isIdentifier name = true)
    (hext : matchExtension ('.' :: ext) = true) :
    matchNonword (name ++ '.' :: ext) = some name := by
  cases name with
  | nil => simp [isIdentifier] at hn
  | cons n0 nrest =>
    simp only [isIdentifier, Bool.and_eq_true, List.all_eq_true] at hn
    obtain ⟨h0, hrest⟩ := hn
    have hw0 : isWordChar n0 = true := isWordChar_of_isIdentStart n0 h0
    have e : (n0 :: nrest) ++ '.' :: ext = n0 :: (nrest ++ '.' :: ext) := rfl
    rw [e]
    simp only [matchNonword, hw0, Bool.not_true, Bool.false_eq_true, if_false, matchGroup, h0,
      if_true]
    exact matchIdentRest_complete [n0] nrest ext hrest hext

theorem isWordChar_of_isIdentifier (name : Str) (hn : isIdentifier name = true) :
    ∀ c ∈ name, isWordChar c = true := by
  cases name with
  | nil => simp [isIdentifier] at hn
  | cons n0 nrest =>
    simp only [isIdentifier, Bool.and_eq_true, List.all_eq_true] at hn
    intro c hc
    rcases List.mem_cons.mp hc with e | e
    · rw [e]; exact isWordChar_of_isIdentStart n0 hn.1
    · exact hn.2 c e

/-- A match that starts inside a directory part ending in `/` has the file name as group. -/
theorem group_eq_name (nw g t4 d0 name ext : Str)
    (h : nw ++ g ++ t4 = (d0 ++ ['/']) ++ name ++ '.' :: ext)
    (hnw : ∀ c ∈ nw, isWordChar c = false) (hg : ∀ c ∈ g, isWordChar c = true)
    (hname : ∀ c ∈ name, isWordChar c = true)
    (h4 : t4.length = 4) (he : ext.length = 3) : g = name := by
  have hl : t4.length = ('.' :: ext).length := by simp [h4, he]
  obtain ⟨h1, _⟩ := List.append_inj' h hl
  rcases List.append_eq_append_iff.mp h1 with ⟨a, e1, e2⟩ | ⟨c, e1, e2⟩
  · -- `d0 ++ ['/'] = nw ++ a` and `g = a ++ name`
    rcases List.eq_nil_or_concat a with ha | ⟨a0, x, ha⟩
    · rw [ha] at e2
      simpa using e2
    · exfalso
      rw [ha, List.concat_eq_append, ← List.append_assoc] at e1
      have hx : ['/'] = [x] := (List.append_inj' e1 (by simp)).2
      have hxe : x = '/' := by simpa using hx.symm
      have hmem : x ∈ g := by rw [e2, ha]; simp
      have := hg x hmem
      rw [hxe] at this
      exact absurd this (by decide)
  · -- `nw = d0 ++ ['/'] ++ c` and `name = c ++ g`
    cases c with
    | nil => simpa using e2.symm
    | cons y c2 =>
      exfalso
      have hy1 : y ∈ nw := by rw [e1]; simp
      have hy2 : y ∈ name := by rw [e2]; simp
      have := hnw y hy1
      rw [hname y hy2] at this
      exact absurd this (by decide)

theorem FindStringSubmatch_path (d name ext : Str)
    (hd : d = [] ∨ ∃ d0, d = d0 ++ ['/']) (hn : isIdentifier name = true)
    (he : ext.length = 3) (hc : ∀ c ∈ ext, isCsvChar c = true) :
    ∃ whole, FindStringSubmatch (d ++ name ++ '.' :: ext) = [whole, name] := by
  have hext := matchExtension_dot ext he hc
  have hname := isWordChar_of_isIdentifier name hn
  induction d with
  | nil =>
    have hm := matchNonword_identifier name ext hn hext
    cases hs : name ++ '.' :: ext with
    | nil => simp at hs
    | cons c t =>
      rw [hs] at hm
      refine ⟨c :: t, ?_⟩
      simp only [List.nil_append, hs, FindStringSubmatch, hm]
  | cons c d' ih =>
    have hd' : d' = [] ∨ ∃ d0, d' = d0 ++ ['/'] := by
      rcases hd with hd | ⟨d0, hd0⟩
      · simp at hd
      · cases d0 with
        | nil =>
          left
          simp at hd0
          exact hd0.2
        | cons x d1 =>
          right
          simp at hd0
          exact ⟨d1, hd0.2⟩
    obtain ⟨whole, hw⟩ := ih hd'
    have e : (c :: d') ++ name ++ '.' :: ext = c :: (d' ++ name ++ '.' :: ext) := rfl
    rw [e]
    cases hm : matchNonword (c :: (d' ++ name ++ '.' :: ext)) with
    | none =>
      refine ⟨whole, ?_⟩
      simp only [FindStringSubmatch, hm, hw]
    | some g =>
      obtain ⟨nw, t4, e1, e2, _, e4, e5⟩ := matchNonword_sound _ _ hm
      obtain ⟨d0, hd0⟩ : ∃ d0, c :: d' = d0 ++ ['/'] := by
        rcases hd with hd | hd
        · simp at hd
        · exact hd
      have hg : g = name := by
        apply group_eq_name nw g t4 d0 name ext _ e2 e4 hname e5 he
        rw [← e1, ← hd0]
        rfl
      refine ⟨c :: (d' ++ name ++ '.' :: ext), ?_⟩
      simp only [FindStringSubmatch, hm, hg]

theorem figureOutTableName_of_submatch (path whole g : Str)
    (h : FindStringSubmatch path = [whole, g]) : figureOutTableName [] path = g := by
  unfold figureOutTableName
  simp only [List.length_nil, if_true]
  generalize FindStringSubmatch path = m at h
  subst h
  simp

/-- C13: for every non-empty table flag and every CSV path, `figureOutTableName` returns the
table flag unchanged. -/
theorem figureOutTableName_flag (flagTable flagCSVFile : Str) (h : flagTable ≠ []) :
    figureOutTableName flagTable flagCSVFile = flagTable := by
  have hlen : ¬ flagTable.length = 0 := fun e => h (List.length_eq_zero.mp e)
  simp only [figureOutTableName, hlen, if_false]

/-- Witness of C13: the flag `mandalorian` with the path of the repository's test. -/
theorem figureOutTableName_flag_witness :
    figureOutTableName "mandalorian".toList "/9_CsvTEST_TABLE/a.csV".toList =
      "mandalorian".toList :=
  figureOutTableName_flag "mandalorian".toList "/9_CsvTEST_TABLE/a.csV".toList (by decide)

/-- C14: with an empty table flag, for every path `d ++ name ++ "." ++ ext` where `d` is empty
or ends with `/`, `name` is an identifier and `ext` is three characters of `csvCSV`,
`figureOutTableName` returns `name`; for the path `.csv` it returns `unnamed`; and the path
`/9_CsvTEST_TABLE/a.csV` gives `a`. -/
theorem figureOutTableName_from_path :
    (∀ d name ext : Str, (d = [] ∨ ∃ d0, d = d0 ++ "/".toList) → isIdentifier name = true →
      ext.length = 3 → (∀ c ∈ ext, isCsvChar c = true) →
      figureOutTableName [] (d ++ name ++ ".".toList ++ ext) = name) ∧
    figureOutTableName [] ".csv".toList = "unnamed".toList ∧
    figureOutTableName [] "/9_CsvTEST_TABLE/a.csV".toList = "a".toList := by
  refine ⟨?_, by decide, by decide⟩
  intro d name ext hd hn he hc
  obtain ⟨whole, hw⟩ := FindStringSubmatch_path d name ext hd hn he hc
  have e : d ++ name ++ ".".toList ++ ext = d ++ name ++ '.' :: ext := by
    show d ++ name ++ ['.'] ++ ext = _
    simp
  rw [e]
  exact figureOutTableName_of_submatch _ whole name hw

/-- Witness of C14: the path `data/my_table.CSV`. -/
theorem figureOutTableName_from_path_witness :
    figureOutTableName [] ("data/".toList ++ "my_table".toList ++ ".".toList ++ "CSV".toList) =
      "my_table".toList :=
  figureOutTableName_from_path.1 "data/".toList "my_table".toList "CSV".toList
    (Or.inr ⟨"data".toList, by decide⟩) (by decide) (by decide) (by decide)

/-- C15: `figureOutSQLFilePath t p` is `t ++ ".sql"` when `p` is empty and `p` itself when
`p` is non-empty; `("mapping", "")` gives `mapping.sql`. -/
theorem figureOutSQLFilePath_spec (tableName flagSQLFile : Str) :
    (flagSQLFile = [] → figureOutSQLFilePath tableName flagSQLFile =
      tableName ++ ".sql".toList) ∧
    (flagSQLFile ≠ [] → figureOutSQLFilePath tableName flagSQLFile = flagSQLFile) ∧
    figureOutSQLFilePath "mapping".toList [] = "mapping.sql".toList := by
  refine ⟨?_, ?_, by decide⟩
  · intro h
    simp [figureOutSQLFilePath, h]
  · intro h
    have hlen : ¬ flagSQLFile.length = 0 := fun e => h (List.length_eq_zero.mp e)
    simp only [figureOutSQLFilePath, hlen, if_false]

/-- Witness of C15: the pairs of the repository's test. -/
theorem figureOutSQLFilePath_spec_witness :
    figureOutSQLFilePath "mapping".toList [] = "mapping".toList ++ ".sql".toList ∧
    figureOutSQLFilePath "mapping".toList "path/to/sql/file.sql".toList =
      "path/to/sql/file.sql".toList :=
  ⟨(figureOutSQLFilePath_spec "mapping".toList []).1 rfl,
   (figureOutSQLFilePath_spec "mapping".toList "path/to/sql/file.sql".toList).2.1
     (by decide)⟩

/-! ## `strings.Index` for arbitrary separators, and `utils.Between` -/

theorem indexFrom_spec (sep s : Str) (i : Nat) :
    (indexFrom sep s i = -1 ∧ ∀ j, ¬ sep <+: s.drop j) ∨
    (∃ k, k ≤ s.length ∧ indexFrom sep s i = ((i + k : Nat) : Int) ∧ sep <+: s.drop k ∧
      ∀ j < k, ¬ sep <+: s.drop j) := by
  induction s generalizing i with
  | nil =>
    by_cases hp : sep.isPrefixOf [] = true
    · right
      refine ⟨0, le_refl _, by simp [indexFrom, hp], ?_, ?_⟩
      · exact List.isPrefixOf_iff_prefix.mp hp
      · intro j hj
        omega
    · left
      refine ⟨by simp [indexFrom, hp], ?_⟩
      intro j hj
      rw [List.drop_nil] at hj
      exact hp (List.isPrefixOf_iff_prefix.mpr hj)
  | cons c t ih =>
    by_cases hp : sep.isPrefixOf (c :: t) = true
    · right
      refine ⟨0, Nat.zero_le _, by simp [indexFrom, hp], ?_, ?_⟩
      · exact List.isPrefixOf_iff_prefix.mp hp
      · intro j hj
        omega
    · have hnp : ¬ sep <+: c :: t := fun h => hp (List.isPrefixOf_iff_prefix.mpr h)
      simp only [indexFrom, hp, if_false]
      rcases ih (i + 1) with ⟨h1, h2⟩ | ⟨k, hk, h1, h2, h3⟩
      · left
        refine ⟨h1, ?_⟩
        intro j
        cases j with
        | zero => exact hnp
        | succ j2 => exact h2 j2
      · right
        refine ⟨k + 1, by simp; omega, ?_, h2, ?_⟩
        · rw [h1]
          push_cast
          omega
        · intro j hj
          cases j with
          | zero => exact hnp
          | succ j2 => exact h3 j2 (by omega)

theorem Index_spec (sep s : Str) :
    (Index s sep = -1 ∧ ∀ j, ¬ sep <+: s.drop j) ∨
    (∃ k, k ≤ s.length ∧ Index s sep = (k : Int) ∧ sep <+: s.drop k ∧
      ∀ j < k, ¬ sep <+: s.drop j) := by
  rcases indexFrom_spec sep s 0 with h | ⟨k, hk, h1, h2, h3⟩
  · exact Or.inl h
  · exact Or.inr ⟨k, hk, by simpa [Index] using h1, h2, h3⟩

theorem prefix_drop_of_eq (sep a b s : Str) (h : s = a ++ sep ++ b) :
    sep <+: s.drop a.length := by
  rw [h, List.append_assoc, List.drop_left]
  exact List.prefix_append _ _

theorem Index_of_not_infix (sep s : Str) (h : ¬ sep <:+: s) : Index s sep = -1 := by
  rcases Index_spec sep s with ⟨h1, _⟩ | ⟨k, _, _, h2, _⟩
  · exact h1
  · exact absurd (List.IsInfix.trans h2.isInfix (List.drop_suffix k s).isInfix) h

/-- A first occurrence in the words of the spec is the first position found by the scan. -/
theorem FirstOccurrence_position (sep x s : Str) (h : FirstOccurrence sep x s) :
    sep <+: s.drop x.length ∧ ∀ j < x.length, ¬ sep <+: s.drop j := by
  obtain ⟨⟨rest, hs⟩, honly⟩ := h
  refine ⟨prefix_drop_of_eq sep x rest s hs, ?_⟩
  intro j hj hpre
  obtain ⟨u, hu⟩ := hpre
  have hjs : j ≤ s.length := by rw [hs]; simp; omega
  have hsplit : s = s.take j ++ sep ++ u := by
    rw [List.append_assoc, hu, List.take_append_drop]
  have hlen : (s.take j).length = j := by simp [hjs]
  have hp1 : (s.take j ++ sep) <+: s := ⟨u, hsplit.symm⟩
  have hp2 : (x ++ sep) <+: s := ⟨rest, hs.symm⟩
  have hle : (s.take j ++ sep).length ≤ (x ++ sep).length := by
    simp only [List.length_append, hlen]
    omega
  obtain ⟨b, hb⟩ := List.prefix_of_prefix_length_le hp1 hp2 hle
  have hbnil := honly (s.take j) b hb.symm
  rw [hbnil] at hb
  have := congrArg List.length hb
  simp only [List.append_nil, List.length_append, hlen] at this
  omega

theorem Index_of_FirstOccurrence (sep x s : Str) (h : FirstOccurrence sep x s) :
    Index s sep = (x.length : Int) := by
  obtain ⟨h1, h2⟩ := FirstOccurrence_position sep x s h
  rcases Index_spec sep s with ⟨_, hno⟩ | ⟨k, _, hk, hpre, hfirst⟩
  · exact absurd h1 (hno _)
  · rw [hk]
    congr 1
    rcases Nat.lt_trichotomy k x.length with hlt | heq | hgt
    · exact absurd hpre (h2 k hlt)
    · exact heq
    · exact absurd h1 (hfirst _ hgt)

/-- The first position found by the scan is a first occurrence in the words of the spec. -/
theorem OnlyAtEnd_of_first (sep p rest s : Str) (hs : s = p ++ sep ++ rest)
    (hfirst : ∀ j < p.length, ¬ sep <+: s.drop j) : OnlyAtEnd sep (p ++ sep) := by
  intro a b hab
  by_contra hb
  have hblen : 0 < b.length := List.length_pos.mpr hb
  have hl := congrArg List.length hab
  simp only [List.length_append] at hl
  have halt : a.length < p.length := by omega
  apply hfirst a.length halt
  apply prefix_drop_of_eq sep a (b ++ rest) s
  rw [hs, hab]
  simp

theorem slice_natCast (v : Str) (a b : Nat) :
    slice v (a : Int) (b : Int) = (v.drop a).take (b - a) := by
  simp [slice]

/-- `Between` when both separators occur: `i` and `k` are the offsets `strings.Index` finds. -/
theorem Between_of_indices (value left right : Str) (i k : Nat)
    (hi : Index value left = (i : Int)) (hk : Index value right = (k : Int)) :
    Between value left right =
      if k ≤ i + left.length then [] else (value.drop (i + left.length)).take
        (k - (i + left.length)) := by
  have h1 : ¬ ((i : Int) = -1) := by omega
  have h2 : ¬ ((k : Int) = -1) := by omega
  have e : (i : Int) + (left.length : Int) = ((i + left.length : Nat) : Int) := by
    push_cast
    rfl
  simp only [Between, hi, hk, h1, h2, if_false]
  rw [e, slice_natCast]
  by_cases hle : k ≤ i + left.length
  · rw [if_pos hle, if_pos (by omega)]
  · rw [if_neg hle, if_neg (by omega)]

/-- C16: `utils.Between` returns the empty string when `left` does not occur in `value`, when
`right` does not occur in `value`, or when the first occurrence of `left` does not end
strictly before the first occurrence of `right` starts; and a non-empty result `r` satisfies
`value = x ++ left ++ r ++ right ++ y` where `x ++ left` contains `left` only at its end and
`x ++ left ++ r ++ right` contains `right` only at its end.  `Between "canada" "can" "da"` is
`a` and `Between "canada" "can" "ada"` is empty. -/
theorem Between_spec (value left right : Str) :
    (¬ left <:+: value → Between value left right = []) ∧
    (¬ right <:+: value → Between value left right = []) ∧
    (∀ x z : Str, FirstOccurrence left x value → FirstOccurrence right z value →
      z.length ≤ x.length + left.length → Between value left right = []) ∧
    (∀ r : Str, Between value left right = r → r ≠ [] →
      ∃ x y : Str, value = x ++ left ++ r ++ right ++ y ∧ OnlyAtEnd left (x ++ left) ∧
        OnlyAtEnd right (x ++ left ++ r ++ right)) ∧
    Between "canada".toList "can".toList "da".toList = "a".toList ∧
    Between "canada".toList "can".toList "ada".toList = [] := by
  refine ⟨?_, ?_, ?_, ?_, by decide, by decide⟩
  · intro h
    simp [Between, Index_of_not_infix left value h]
  · intro h
    simp only [Between, Index_of_not_infix right value h]
    split <;> simp
  · intro x z hx hz hle
    rw [Between_of_indices value left right x.length z.length
      (Index_of_FirstOccurrence left x value hx) (Index_of_FirstOccurrence right z value hz),
      if_pos hle]
  · intro r hr hne
    rcases Index_spec left value with ⟨h1, _⟩ | ⟨i, hil, hi, hpi, hfi⟩
    · rw [← hr] at hne
      simp [Between, h1] at hne
    rcases Index_spec right value with ⟨h1, _⟩ | ⟨k, hkl, hk, hpk, hfk⟩
    · rw [← hr] at hne
      simp only [Between, h1] at hne
      split at hne <;> simp at hne
    rw [Between_of_indices value left right i k hi hk] at hr
    by_cases hle : k ≤ i + left.length
    · rw [if_pos hle] at hr
      exact absurd hr.symm hne
    · rw [if_neg hle] at hr
      obtain ⟨u, hu⟩ := hpi
      obtain ⟨y, hy⟩ := hpk
      have hv1 : value = value.take i ++ left ++ u := by
        rw [List.append_assoc, hu, List.take_append_drop]
      have hv2 : value = value.take k ++ right ++ y := by
        rw [List.append_assoc, hy, List.take_append_drop]
      have hxlen : (value.take i).length = i := by simp [hil]
      have hklen : (value.take k).length = k := by simp [hkl]
      have htake1 : value.take (i + left.length) = value.take i ++ left := by
        conv => lhs; rw [hv1, List.append_assoc]
        rw [List.take_append_eq_append_take, hxlen]
        simp
      have htake2 : value.take k = value.take i ++ left ++ r := by
        have hk2 : k = (i + left.length) + (k - (i + left.length)) := by omega
        conv => lhs; rw [hk2, List.take_add, htake1]
        rw [hr]
      refine ⟨value.take i, y, ?_, ?_, ?_⟩
      · rw [← htake2]
        exact hv2
      · exact OnlyAtEnd_of_first left (value.take i) u value hv1 (by rw [hxlen]; exact hfi)
      · rw [← htake2]
        exact OnlyAtEnd_of_first right (value.take k) y value hv2 (by rw [hklen]; exact hfk)

/-- Witness of C16: `canada` between `can` and `da`, and a value without `left`. -/
theorem Between_spec_witness :
    Between "canada".toList "ce".toList "da".toList = [] ∧
    ∃ x y : Str, "canada".toList = x ++ "can".toList ++ "a".toList ++ "da".toList ++ y ∧
      OnlyAtEnd "can".toList (x ++ "can".toList) ∧
      OnlyAtEnd "da".toList (x ++ "can".toList ++ "a".toList ++ "da".toList) :=
  ⟨(Between_spec "canada".toList "ce".toList "da".toList).1 (by decide),
   (Between_spec "canada".toList "can".toList "da".toList).2.2.2.1 "a".toList (by decide)
     (by decide)⟩

/-! ## Sanitizer: safety of the quoted literal -/

theorem quoteRunsFrom_escape (s : Str) (cur : Nat) (h : Even cur) :
    ∀ n ∈ quoteRunsFrom cur (s.flatMap escapeChar), Even n := by
  induction s generalizing cur with
  | nil =>
    intro n hn
    by_cases h0 : cur = 0
    · simp [quoteRunsFrom, h0] at hn
    · simp only [List.flatMap_nil, quoteRunsFrom, h0, if_false, List.mem_singleton] at hn
      rw [hn]
      exact h
  | cons c t ih =>
    by_cases hc : c = quote
    · have e : (c :: t).flatMap escapeChar = quote :: quote :: t.flatMap escapeChar := by
        simp [List.flatMap_cons, escapeChar, hc]
      rw [e]
      simp only [quoteRunsFrom, if_true]
      exact ih (cur + 1 + 1) (by
        have : cur + 1 + 1 = cur + 2 := rfl
        rw [this]
        exact Even.add h even_two)
    · have e : (c :: t).flatMap escapeChar = c :: t.flatMap escapeChar := by
        simp [List.flatMap_cons, escapeChar, hc]
      rw [e]
      simp only [quoteRunsFrom, hc, if_false]
      by_cases h0 : cur = 0
      · simp only [h0, if_true]
        exact ih 0 (by decide)
      · simp only [h0, if_false]
        intro n hn
        rcases List.mem_cons.mp hn with hn | hn
        · rw [hn]; exact h
        · exact ih 0 (by decide) n hn

theorem collapse_escape (s : Str) :
    replaceFrom [quote, quote] [quote] 0 (s.flatMap escapeChar) = s := by
  induction s with
  | nil => simp [replaceFrom]
  | cons c t ih =>
    by_cases hc : c = quote
    · have e : (c :: t).flatMap escapeChar = quote :: quote :: t.flatMap escapeChar := by
        simp [List.flatMap_cons, escapeChar, hc]
      rw [e, hc]
      simp [replaceFrom, List.isPrefixOf, ih]
    · have e : (c :: t).flatMap escapeChar = c :: t.flatMap escapeChar := by
        simp [List.flatMap_cons, escapeChar, hc]
      have hc2 : ¬ quote = c := fun h => hc h.symm
      rw [e]
      simp [replaceFrom, List.isPrefixOf, ih, hc2]

theorem collapseQuotes_sanitize (s : Str) : collapseQuotes (sanitize s) = s := by
  simp [collapseQuotes, ReplaceAll, sanitize_eq_flatMap, collapse_escape]

/-- C18: in `sanitize s` every maximal run of consecutive single quotes has even length;
collapsing each pair of single quotes back to one recovers `s`; hence `sanitize` is
injective. -/
theorem sanitize_safe_literal (s : Str) :
    (∀ n ∈ quoteRuns (sanitize s), Even n) ∧
    collapseQuotes (sanitize s) = s ∧
    (∀ t : Str, sanitize s = sanitize t → s = t) := by
  refine ⟨?_, collapseQuotes_sanitize s, ?_⟩
  · rw [sanitize_eq_flatMap]
    exact quoteRunsFrom_escape s 0 (by decide)
  · intro t h
    rw [← collapseQuotes_sanitize s, ← collapseQuotes_sanitize t, h]

/-- Witness of C18: the runs of quotes of `sanitize "it's ''ok''"`. -/
theorem sanitize_safe_literal_witness :
    quoteRuns (sanitize "it's ''ok''".toList) = [2, 4, 4] ∧
    (∀ n ∈ quoteRuns (sanitize "it's ''ok''".toList), Even n) ∧
    collapseQuotes (sanitize "it's ''ok''".toList) = "it's ''ok''".toList :=
  ⟨by decide, (sanitize_safe_literal "it's ''ok''".toList).1,
   (sanitize_safe_literal "it's ''ok''".toList).2.1⟩

/-! ## Engine state after each row -/

theorem loopBody_of_nonpos (s c : Int) (hs : s ≤ 0) (entry : List Str) :
    loopBody s c Engine.init entry = Engine.init := by
  have h1 : ¬ ((0 : Int) < s) := by omega
  have h2 : ¬ (c > 0 ∧ (0 : Int) = c) := by omega
  simp only [loopBody, Engine.init, h1, if_false, h2]

theorem runLoop_of_nonpos (s c : Int) (hs : s ≤ 0) (rows : List (List Str)) :
    runLoop s c rows = Engine.init := by
  unfold runLoop
  induction rows with
  | nil => rfl
  | cons r rest ih => rw [List.foldl_cons, loopBody_of_nonpos s c hs, ih]

/-- C20: an insert-chunk-size `s ≤ 0` drops all data: after any rows the pending batch is
still empty (no row is ever appended), the engine makes no write at all, neither an insert
statement nor a transaction marker, and the text written between prefix and suffix is
empty. -/
theorem readCSVFile_nonpositive_insert_chunk (s c : Int) (hs : s ≤ 0)
    (rows : List (List Str)) (table : Str) (columns : List (List Str)) :
    (runLoop s c rows).insertChunk = [] ∧
    (runLoop s c rows).written = [] ∧
    readCSVFile s c rows = [] ∧
    sqlText table columns (readCSVFile s c rows) = some [] := by
  have h := runLoop_of_nonpos s c hs rows
  have hr : readCSVFile s c rows = [] := by
    simp [readCSVFile, h, afterLoop, Engine.init]
  refine ⟨by rw [h]; rfl, by rw [h]; rfl, hr, ?_⟩
  rw [hr]
  rfl

/-- Witness of C20: five rows with insert-chunk-size `0` and chunk-size `4`. -/
theorem readCSVFile_nonpositive_insert_chunk_witness :
    (0 : Int) ≤ 0 ∧ readCSVFile 0 4 fiveRows = [] ∧
    sqlText "t".toList [["a".toList, "number".toList]] (readCSVFile 0 4 fiveRows) = some [] :=
  ⟨by decide,
   (readCSVFile_nonpositive_insert_chunk 0 4 (by decide) fiveRows "t".toList
      [["a".toList, "number".toList]]).2.2.1,
   (readCSVFile_nonpositive_insert_chunk 0 4 (by decide) fiveRows "t".toList
      [["a".toList, "number".toList]]).2.2.2⟩

theorem drop_length_sub_of_append {α : Type} (l a b : List α) (h : l = a ++ b) :
    l.drop (l.length - b.length) = b := by
  subst h
  have e : (a ++ b).length - b.length = a.length := by simp
  rw [e, List.drop_left]

/-- C17: for insert-chunk-size `s ≥ 1` and any chunk-size `c`, in the state of the engine
after any number of rows the pending batch holds exactly `insertChunkCount` rows with
`0 ≤ insertChunkCount < s`; when `c > 0` the transaction counter satisfies
`0 ≤ chunkCount < c`; and the pending rows are the last `n mod s` of the `n` rows read. -/
theorem engine_state_invariant (s c : Int) (hs : 1 ≤ s) (rows : List (List Str)) :
    (runLoop s c rows).insertChunkCount = ((runLoop s c rows).insertChunk.length : Int) ∧
    0 ≤ (runLoop s c rows).insertChunkCount ∧
    (runLoop s c rows).insertChunkCount < s ∧
    (0 < c → 0 ≤ (runLoop s c rows).chunkCount ∧ (runLoop s c rows).chunkCount < c) ∧
    ((runLoop s c rows).insertChunk.length : Int) = (rows.length : Int) % s ∧
    (runLoop s c rows).insertChunk.map record.values =
      rows.drop (rows.length - (runLoop s c rows).insertChunk.length) := by
  obtain ⟨b1, b2, b3, b4⟩ := BatchInv_runLoop s c hs rows
  have hchunk : 0 < c → 0 ≤ (runLoop s c rows).chunkCount ∧
      (runLoop s c rows).chunkCount < c := by
    intro hc
    obtain ⟨gs, pending, _, g2, g3, _⟩ :
        ∃ gs pending, GroupInv c (runLoop s c rows) gs pending := by
      have := GroupInv_foldl s c hc rows Engine.init [] (BatchInv_init s hs)
        ⟨[], [], GroupInv_init c hc⟩
      simpa [runLoop] using this
    rw [g2]
    exact ⟨by omega, g3⟩
  lift s to ℕ using (by omega : 0 ≤ s) with k
  have hW : ∀ b ∈ batches (runLoop (k : Int) c rows).written, b.length = k :=
    fun b hb => by have := b3 b hb; omega
  have hp : (runLoop (k : Int) c rows).insertChunk.length < k := by omega
  have hn : rows.length = (batches (runLoop (k : Int) c rows).written).length * k +
      (runLoop (k : Int) c rows).insertChunk.length := by
    conv => lhs; rw [← b4]
    rw [List.length_map, List.length_append, length_flatten_of_uniform k _ hW]
  obtain ⟨_, hmod⟩ := div_mod_of_chunks k _ _ _ hp hn
  refine ⟨b1, by omega, by omega, hchunk, hmod.symm, ?_⟩
  have hsplit : rows = (batches (runLoop (k : Int) c rows).written).flatten.map record.values ++
      (runLoop (k : Int) c rows).insertChunk.map record.values := by
    conv => lhs; rw [← b4]
    rw [List.map_append]
  have := drop_length_sub_of_append rows _ _ hsplit
  rw [List.length_map] at this
  exact this.symm

/-- Witness of C17: the state after five rows with insert-chunk-size `2`, chunk-size `4`. -/
theorem engine_state_invariant_witness :
    (1 : Int) ≤ 2 ∧
    (runLoop 2 4 fiveRows).insertChunkCount = 1 ∧
    (runLoop 2 4 fiveRows).chunkCount = 2 ∧
    (runLoop 2 4 fiveRows).insertChunk.map record.values = [["5".toList]] ∧
    (runLoop 2 4 fiveRows).insertChunkCount < 2 ∧
    ((0 : Int) < 4 → 0 ≤ (runLoop 2 4 fiveRows).chunkCount ∧
      (runLoop 2 4 fiveRows).chunkCount < 4) :=
  ⟨by decide, by decide, by decide, by decide,
   (engine_state_invariant 2 4 (by decide) fiveRows).2.2.1,
   (engine_state_invariant 2 4 (by decide) fiveRows).2.2.2.1⟩

/-! ## The engine with `createInsertStatement` evaluated in place -/

theorem commitCheck_written_extends (c : Int) (st : Engine) :
    st.written <+: (commitCheck c st).written := by
  unfold commitCheck
  split
  · exact List.prefix_append _ _
  · exact List.prefix_refl _

theorem loopBody_eq_commitCheck (s c : Int) (st : Engine) (entry : List Str) :
    loopBody s c st entry = commitCheck c (appendEntry s c st entry) := rfl

theorem appendEntry_written_extends (s c : Int) (st : Engine) (entry : List Str) :
    st.written <+: (appendEntry s c st entry).written := by
  unfold appendEntry
  by_cases h1 : st.insertChunkCount < s
  · simp only [h1, if_true]
    by_cases h2 : st.insertChunkCount + 1 = s
    · simp only [h2, if_true]
      by_cases h3 : c > 0 ∧ st.chunkCount = 0
      · simp only [h3, and_self, if_true, List.append_assoc]
        exact List.prefix_append _ _
      · simp only [h3, if_false]
        exact List.prefix_append _ _
    · simp only [h2, if_false]
      exact List.prefix_refl _
  · simp only [h1, if_false]
    exact List.prefix_refl _

theorem loopBody_written_extends (s c : Int) (st : Engine) (entry : List Str) :
    st.written <+: (loopBody s c st entry).written := by
  rw [loopBody_eq_commitCheck]
  exact List.IsPrefix.trans (appendEntry_written_extends s c st entry)
    (commitCheck_written_extends c _)

theorem foldl_written_extends (s c : Int) (rows : List (List Str)) (st : Engine) :
    st.written <+: (rows.foldl (loopBody s c) st).written := by
  induction rows generalizing st with
  | nil => exact List.prefix_refl _
  | cons r rest ih =>
    exact List.IsPrefix.trans (loopBody_written_extends s c st r) (ih (loopBody s c st r))

theorem afterLoop_written_extends (c : Int) (st : Engine) : st.written <+: afterLoop c st := by
  unfold afterLoop
  have h0 : st.written <+: (if c > 0 ∧ st.chunkCount > 0 then
      st.written ++ [Write.text "commit transaction;\n".toList] else st.written) := by
    split
    · exact List.prefix_append _ _
    · exact List.prefix_refl _
  refine List.IsPrefix.trans h0 ?_
  by_cases hp : st.insertChunk.length > 0
  · simp only [hp, if_true]
    by_cases hc : c > 0
    · simp only [hc, if_true, true_and, List.append_assoc]
      exact List.prefix_append _ _
    · simp only [hc, if_false, false_and]
      exact List.prefix_append _ _
  · simp only [hp, if_false]
    exact List.prefix_refl _

/-- An iteration that does not panic leaves the state of the unevaluated loop body. -/
theorem loopBodyExec_next (table : Str) (columns : List (List Str)) (s c : Int)
    (st st2 : Engine) (entry : List Str)
    (h : loopBodyExec table columns s c st entry = Step.next st2) :
    st2 = loopBody s c st entry := by
  unfold loopBodyExec at h
  unfold loopBody
  by_cases h1 : st.insertChunkCount < s
  · simp only [h1, if_true] at h ⊢
    by_cases h2 : st.insertChunkCount + 1 = s
    · simp only [h2, if_true] at h ⊢
      cases hc : createInsertStatement (st.insertChunk ++ [{ values := entry }]) table
          columns with
      | none => rw [hc] at h; exact Step.noConfusion h
      | some _ =>
        rw [hc] at h
        simp only [Step.next.injEq] at h
        rw [← h]
        rfl
    · simp only [h2, if_false] at h ⊢
      simp only [Step.next.injEq] at h
      rw [← h]
      rfl
  · simp only [h1, if_false] at h ⊢
    simp only [Step.next.injEq] at h
    rw [← h]
    rfl

/-- An iteration that panics has made the writes of the unevaluated loop body up to the
statement of the batch on which `createInsertStatement` panics. -/
theorem loopBodyExec_abort (table : Str) (columns : List (List Str)) (s c : Int)
    (st : Engine) (entry : List Str) (w : List Write) (b : List record)
    (h : loopBodyExec table columns s c st entry = Step.abort w b) :
    createInsertStatement b table columns = none ∧
      (w ++ [Write.insert b]) <+: (loopBody s c st entry).written := by
  unfold loopBodyExec at h
  by_cases h1 : st.insertChunkCount < s
  · simp only [h1, if_true] at h
    by_cases h2 : st.insertChunkCount + 1 = s
    · simp only [h2, if_true] at h
      cases hc : createInsertStatement (st.insertChunk ++ [{ values := entry }]) table
          columns with
      | none =>
        rw [hc] at h
        simp only [Step.abort.injEq] at h
        obtain ⟨hw, hb⟩ := h
        refine ⟨by rw [← hb]; exact hc, ?_⟩
        rw [← hw, ← hb]
        have hp := commitCheck_written_extends c
          { chunkCount := st.chunkCount + 1
            insertChunkCount := 0
            insertChunk := []
            written := (if c > 0 ∧ st.chunkCount = 0 then
                st.written ++ [Write.text "begin transaction;\n".toList]
              else st.written) ++ [Write.insert (st.insertChunk ++ [{ values := entry }])] }
        have e : loopBody s c st entry = commitCheck c
          { chunkCount := st.chunkCount + 1
            insertChunkCount := 0
            insertChunk := []
            written := (if c > 0 ∧ st.chunkCount = 0 then
                st.written ++ [Write.text "begin transaction;\n".toList]
              else st.written) ++ [Write.insert (st.insertChunk ++ [{ values := entry }])] } := by
          unfold loopBody
          simp only [h1, if_true, h2]
          rfl
        rw [e]
        exact hp
      | some _ => rw [hc] at h; exact Step.noConfusion h
    · simp only [h2, if_false] at h
      exact Step.noConfusion h
  · simp only [h1, if_false] at h
    exact Step.noConfusion h

theorem afterLoopExec_finished (table : Str) (columns : List (List Str)) (c : Int)
    (st : Engine) (w : List Write)
    (h : afterLoopExec table columns c st = Outcome.finished w) : w = afterLoop c st := by
  unfold afterLoopExec at h
  unfold afterLoop
  by_cases hp : st.insertChunk.length > 0
  · simp only [hp, if_true] at h ⊢
    cases hc : createInsertStatement st.insertChunk table columns with
    | none => rw [hc] at h; exact Outcome.noConfusion h
    | some _ =>
      rw [hc] at h
      simp only [Outcome.finished.injEq] at h
      exact h.symm
  · simp only [hp, if_false] at h ⊢
    simp only [Outcome.finished.injEq] at h
    exact h.symm

theorem afterLoopExec_panicked (table : Str) (columns : List (List Str)) (c : Int)
    (st : Engine) (w : List Write) (b : List record)
    (h : afterLoopExec table columns c st = Outcome.panicked w b) :
    createInsertStatement b table columns = none ∧
      (w ++ [Write.insert b]) <+: afterLoop c st := by
  unfold afterLoopExec at h
  unfold afterLoop
  by_cases hp : st.insertChunk.length > 0
  · simp only [hp, if_true] at h ⊢
    cases hc : createInsertStatement st.insertChunk table columns with
    | none =>
      rw [hc] at h
      simp only [Outcome.panicked.injEq] at h
      obtain ⟨hw, hb⟩ := h
      refine ⟨by rw [← hb]; exact hc, ?_⟩
      rw [← hw, ← hb]
      split_ifs <;> simp
    | some _ => rw [hc] at h; exact Outcome.noConfusion h
  · simp only [hp, if_false] at h
    exact Outcome.noConfusion h

/-- The run and the unevaluated engine: a run that finishes makes exactly the writes of the
unevaluated engine, and a run that panics has made those writes up to the statement of the
batch on which `createInsertStatement` panics. -/
theorem runExec_sound (table : Str) (columns : List (List Str)) (s c : Int)
    (rows : List (List Str)) (st : Engine) :
    (∀ w, runExec table columns s c st rows = Outcome.finished w →
      w = afterLoop c (rows.foldl (loopBody s c) st)) ∧
    (∀ w b, runExec table columns s c st rows = Outcome.panicked w b →
      createInsertStatement b table columns = none ∧
        (w ++ [Write.insert b]) <+: afterLoop c (rows.foldl (loopBody s c) st)) := by
  induction rows generalizing st with
  | nil =>
    exact ⟨fun w h => afterLoopExec_finished table columns c st w h,
      fun w b h => afterLoopExec_panicked table columns c st w b h⟩
  | cons r rest ih =>
    simp only [runExec, List.foldl_cons]
    cases hstep : loopBodyExec table columns s c st r with
    | next st2 =>
      have e := loopBodyExec_next table columns s c st st2 r hstep
      rw [← e]
      exact ih st2
    | abort w0 b0 =>
      obtain ⟨hnone, hpre⟩ := loopBodyExec_abort table columns s c st r w0 b0 hstep
      refine ⟨fun w h => Outcome.noConfusion h, ?_⟩
      intro w b h
      simp only [Outcome.panicked.injEq] at h
      obtain ⟨hw, hb⟩ := h
      rw [← hw, ← hb]
      exact ⟨hnone, List.IsPrefix.trans hpre (List.IsPrefix.trans
        (foldl_written_extends s c rest (loopBody s c st r))
        (afterLoop_written_extends c _))⟩

theorem readCSVFileExec_finished (table : Str) (columns : List (List Str)) (s c : Int)
    (rows : List (List Str)) (w : List Write)
    (h : readCSVFileExec table columns s c rows = Outcome.finished w) :
    w = readCSVFile s c rows :=
  (runExec_sound table columns s c rows Engine.init).1 w h

theorem readCSVFileExec_panicked (table : Str) (columns : List (List Str)) (s c : Int)
    (rows : List (List Str)) (w : List Write) (b : List record)
    (h : readCSVFileExec table columns s c rows = Outcome.panicked w b) :
    createInsertStatement b table columns = none ∧
      (w ++ [Write.insert b]) <+: readCSVFile s c rows :=
  (runExec_sound table columns s c rows Engine.init).2 w b h

theorem batches_initial (a b : List Write) (h : a <+: b) : batches a <+: batches b := by
  obtain ⟨t, ht⟩ := h
  rw [← ht, batches_append]
  exact List.prefix_append _ _

/-- The batches handed over in a run are the first batches of the unevaluated engine. -/
theorem handed_initial (table : Str) (columns : List (List Str)) (s c : Int)
    (rows : List (List Str)) :
    (readCSVFileExec table columns s c rows).handed <+: batches (readCSVFile s c rows) := by
  cases h : readCSVFileExec table columns s c rows with
  | finished w =>
    rw [readCSVFileExec_finished table columns s c rows w h]
    exact List.prefix_refl _
  | panicked w b =>
    have hp := (readCSVFileExec_panicked table columns s c rows w b h).2
    have := batches_initial _ _ hp
    simpa [Outcome.handed, batches_append, batches] using this

/-- A run finishes when every column entry has a name and a kind and every row has at least
as many fields as there are columns. -/
theorem finished_of_fields (table : Str) (columns : List (List Str)) (s c : Int) (hs : 1 ≤ s)
    (rows : List (List Str)) (hcols : ∀ col ∈ columns, 2 ≤ col.length)
    (hrows : ∀ row ∈ rows, columns.length ≤ row.length) :
    ∃ w, readCSVFileExec table columns s c rows = Outcome.finished w := by
  cases h : readCSVFileExec table columns s c rows with
  | finished w => exact ⟨w, rfl⟩
  | panicked w b =>
    exfalso
    obtain ⟨hnone, hp⟩ := readCSVFileExec_panicked table columns s c rows w b h
    have hb : b ∈ batches (readCSVFile s c rows) := by
      have := batches_initial _ _ hp
      rw [batches_append] at this
      exact this.subset (by simp [batches])
    obtain ⟨hflat, _⟩ := readCSVFile_batches s c hs rows
    have hfields : ∀ r ∈ b, columns.length ≤ r.values.length := by
      intro r hr
      apply hrows
      rw [← hflat]
      exact List.mem_map.mpr ⟨r, List.mem_flatten.mpr ⟨b, hb, hr⟩, rfl⟩
    obtain ⟨out, ho⟩ := createInsertStatement_isSome b table columns hcols hfields
    rw [ho] at hnone
    exact Option.noConfusion hnone

/-- The first batches of a list of consecutive `s`-row chunks are consecutive `s`-row chunks
of a prefix of the rows. -/
theorem prefix_chunk_props (s : Int) (hs : 1 ≤ s) (hsb bs : List (List record))
    (rows : List (List Str)) (hpre : hsb <+: bs)
    (h1 : bs.flatten.map record.values = rows)
    (h2 : ∀ b ∈ bs.dropLast, (b.length : Int) = s)
    (h3 : ∀ b ∈ bs.getLast?, 1 ≤ b.length ∧ (b.length : Int) ≤ s) :
    (hsb.flatten.map record.values <+: rows) ∧
    (∀ b ∈ hsb.dropLast, (b.length : Int) = s) ∧
    (∀ b ∈ hsb.getLast?, 1 ≤ b.length ∧ (b.length : Int) ≤ s) := by
  obtain ⟨t, ht⟩ := hpre
  by_cases hte : t = []
  · rw [hte, List.append_nil] at ht
    rw [ht]
    exact ⟨by rw [h1], h2, h3⟩
  · have hdrop : bs.dropLast = hsb ++ t.dropLast := by
      rw [← ht]
      exact List.dropLast_append_of_ne_nil _ hte
    have hall : ∀ b ∈ hsb, (b.length : Int) = s := by
      intro b hb
      apply h2
      rw [hdrop]
      exact List.mem_append_left _ hb
    refine ⟨?_, ?_, ?_⟩
    · rw [← h1, ← ht, List.flatten_append, List.map_append]
      exact List.prefix_append _ _
    · intro b hb
      exact hall b (List.mem_of_mem_dropLast hb)
    · intro b hb
      have := hall b (List.mem_of_getLast?_eq_some hb)
      omega

/-- C1, as stated, fails for the columns `a,b(number)` and the one-field rows `1`, `2` with
insert-chunk-size `1`: `createInsertStatement` panics on the first batch, so one batch is
handed over, not the two chunks of the input. -/
theorem consecutive_chunks_counterexample :
    readCSVFileExec "t".toList (processColumns ["a".toList, "b(number)".toList]) 1 2
        [["1".toList], ["2".toList]] =
      Outcome.panicked [Write.text "begin transaction;\n".toList]
        [{ values := ["1".toList] }] ∧
    (readCSVFileExec "t".toList (processColumns ["a".toList, "b(number)".toList]) 1 2
        [["1".toList], ["2".toList]]).handed = [[{ values := ["1".toList] }]] ∧
    (readCSVFileExec "t".toList (processColumns ["a".toList, "b(number)".toList]) 1 2
        [["1".toList], ["2".toList]]).handed.flatten.map record.values ≠
      [["1".toList], ["2".toList]] ∧
    (((readCSVFileExec "t".toList (processColumns ["a".toList, "b(number)".toList]) 1 2
        [["1".toList], ["2".toList]]).handed.length : Nat) : Int) ≠
      ((([["1".toList], ["2".toList]] : List (List Str)).length : Int) + 1 - 1) / 1 := by
  decide

/-- C1 (amended): for insert-chunk-size `s ≥ 1`, any chunk-size and any input rows, the
batches handed to `createInsertStatement` are consecutive chunks of the input taken from its
start: concatenated in emission order they are a prefix of the input rows, every batch
except possibly the last has exactly `s` rows and the last has between `1` and `s` rows.  A
run stops early only at a call of `createInsertStatement` that fails.  When the run
finishes, the concatenation is the whole input and there are `⌈n/s⌉` batches; and the run
finishes when every column entry has a name and a kind and every row has at least as many
fields as there are columns. -/
theorem readCSVFileExec_consecutive_chunks (table : Str) (columns : List (List Str))
    (s c : Int) (hs : 1 ≤ s) (rows : List (List Str)) :
    ((readCSVFileExec table columns s c rows).handed.flatten.map record.values <+: rows) ∧
    (∀ b ∈ (readCSVFileExec table columns s c rows).handed.dropLast, (b.length : Int) = s) ∧
    (∀ b ∈ (readCSVFileExec table columns s c rows).handed.getLast?,
      1 ≤ b.length ∧ (b.length : Int) ≤ s) ∧
    (∀ w b, readCSVFileExec table columns s c rows = Outcome.panicked w b →
      createInsertStatement b table columns = none) ∧
    (∀ w, readCSVFileExec table columns s c rows = Outcome.finished w →
      (readCSVFileExec table columns s c rows).handed.flatten.map record.values = rows ∧
      ((readCSVFileExec table columns s c rows).handed.length : Int) =
        ((rows.length : Int) + s - 1) / s) ∧
    ((∀ col ∈ columns, 2 ≤ col.length) → (∀ row ∈ rows, columns.length ≤ row.length) →
      ∃ w, readCSVFileExec table columns s c rows = Outcome.finished w) := by
  obtain ⟨b1, b2, b3, b4⟩ := readCSVFile_batches s c hs rows
  obtain ⟨p1, p2, p3⟩ := prefix_chunk_props s hs _ _ rows
    (handed_initial table columns s c rows) b1 b3 b4
  refine ⟨p1, p2, p3, ?_, ?_, finished_of_fields table columns s c hs rows⟩
  · intro w b h
    exact (readCSVFileExec_panicked table columns s c rows w b h).1
  · intro w h
    have e := readCSVFileExec_finished table columns s c rows w h
    rw [h]
    simp only [Outcome.handed, e]
    exact ⟨b1, b2⟩

/-- Witness of C1 (amended): five rows, insert-chunk-size `2`, chunk-size `4`, one column. -/
theorem readCSVFileExec_consecutive_chunks_witness :
    (1 : Int) ≤ 2 ∧
    (readCSVFileExec "t".toList [["a".toList, "number".toList]] 2 4 fiveRows).handed =
      [[{ values := ["1".toList] }, { values := ["2".toList] }],
       [{ values := ["3".toList] }, { values := ["4".toList] }],
       [{ values := ["5".toList] }]] ∧
    ((readCSVFileExec "t".toList [["a".toList, "number".toList]] 2 4
        fiveRows).handed.flatten.map record.values <+: fiveRows) ∧
    ∃ w, readCSVFileExec "t".toList [["a".toList, "number".toList]] 2 4 fiveRows =
      Outcome.finished w :=
  ⟨by decide, by decide,
   (readCSVFileExec_consecutive_chunks "t".toList [["a".toList, "number".toList]] 2 4
      (by decide) fiveRows).1,
   (readCSVFileExec_consecutive_chunks "t".toList [["a".toList, "number".toList]] 2 4
      (by decide) fiveRows).2.2.2.2.2 (by decide) (by decide)⟩

theorem length_group_writes (g : Group) : 2 ≤ g.writes.length := by
  simp [Group.writes]

/-- C3, as stated, fails for the columns `a,b(number)` and the single one-field row `1` with
insert-chunk-size `2` and chunk-size `1`: the code after the loop writes the begin marker of
the partial batch, `createInsertStatement` panics, and no commit marker follows, so the
writes are not a concatenation of transaction groups. -/
theorem transaction_groups_counterexample :
    readCSVFileExec "t".toList (processColumns ["a".toList, "b(number)".toList]) 2 1
        [["1".toList]] =
      Outcome.panicked [Write.text "\nbegin transaction;".toList]
        [{ values := ["1".toList] }] ∧
    markers (readCSVFileExec "t".toList (processColumns ["a".toList, "b(number)".toList]) 2 1
        [["1".toList]]).written = ["\nbegin transaction;".toList] ∧
    ¬ ∃ gs : List Group,
      (readCSVFileExec "t".toList (processColumns ["a".toList, "b(number)".toList]) 2 1
        [["1".toList]]).written = gs.flatMap Group.writes := by
  have h : readCSVFileExec "t".toList (processColumns ["a".toList, "b(number)".toList]) 2 1
        [["1".toList]] =
      Outcome.panicked [Write.text "\nbegin transaction;".toList]
        [{ values := ["1".toList] }] := by decide
  refine ⟨h, by rw [h]; rfl, ?_⟩
  rw [h]
  rintro ⟨gs, hgs⟩
  cases gs with
  | nil => simp [Outcome.written] at hgs
  | cons g rest =>
    have hl := congrArg List.length hgs
    have h2 := length_group_writes g
    simp only [Outcome.written, List.length_singleton, List.flatMap_cons,
      List.length_append] at hl
    omega

/-- C3 (amended): with chunk-size `c > 0` and insert-chunk-size `s ≥ 1`, a run that finishes
(no call of `createInsertStatement` fails) makes writes that are a concatenation of
transaction groups, each one begin marker, then between `1` and `c` insert statements, then
one commit marker (so the markers alternate begin, commit, ... and no statement lies outside
a group); the groups `full` hold the `⌊n/s⌋` full batches in order, `c` per group except
possibly the last of them, and a trailing partial batch (`n mod s ≠ 0`) forms one more
group `tail` that holds exactly that batch.  A run in which a call fails stops at that call:
its writes, followed by the failing statement, are a prefix of such a concatenation of
groups.  The run finishes when every column entry has a name and a kind and every row has
at least as many fields as there are columns. -/
theorem readCSVFileExec_transaction_groups (table : Str) (columns : List (List Str))
    (s c : Int) (hs : 1 ≤ s) (hc : 0 < c) (rows : List (List Str)) :
    (∀ w, readCSVFileExec table columns s c rows = Outcome.finished w →
      ∃ full tail : List Group,
        w = (full ++ tail).flatMap Group.writes ∧
        markers w = (full ++ tail).flatMap (fun g => [g.opening, g.closing]) ∧
        (∀ g ∈ full ++ tail, isBegin g.opening ∧ isCommit g.closing ∧
          1 ≤ g.stmts.length ∧ (g.stmts.length : Int) ≤ c) ∧
        ((full ++ tail).flatMap Group.stmts).flatten.map record.values = rows ∧
        (∀ b ∈ full.flatMap Group.stmts, (b.length : Int) = s) ∧
        ((full.flatMap Group.stmts).length : Int) = (rows.length : Int) / s ∧
        (∀ g ∈ full.dropLast, (g.stmts.length : Int) = c) ∧
        ((rows.length : Int) % s = 0 → tail = []) ∧
        ((rows.length : Int) % s ≠ 0 → ∃ g b, tail = [g] ∧ g.stmts = [b] ∧
          (b.length : Int) = (rows.length : Int) % s)) ∧
    (∀ w b, readCSVFileExec table columns s c rows = Outcome.panicked w b →
      createInsertStatement b table columns = none ∧
      ∃ gs : List Group,
        (w ++ [Write.insert b]) <+: gs.flatMap Group.writes ∧
        (∀ g ∈ gs, isBegin g.opening ∧ isCommit g.closing ∧
          1 ≤ g.stmts.length ∧ (g.stmts.length : Int) ≤ c)) ∧
    ((∀ col ∈ columns, 2 ≤ col.length) → (∀ row ∈ rows, columns.length ≤ row.length) →
      ∃ w, readCSVFileExec table columns s c rows = Outcome.finished w) := by
  refine ⟨?_, ?_, finished_of_fields table columns s c hs rows⟩
  · intro w h
    rw [readCSVFileExec_finished table columns s c rows w h]
    exact readCSVFile_groups s c hs hc rows
  · intro w b h
    obtain ⟨hnone, hp⟩ := readCSVFileExec_panicked table columns s c rows w b h
    obtain ⟨full, tail, h1, _, h3, _⟩ := readCSVFile_groups s c hs hc rows
    refine ⟨hnone, full ++ tail, ?_, h3⟩
    rw [← h1]
    exact hp

/-- Witness of C3 (amended): five rows, insert-chunk-size `2`, chunk-size `4`, one column. -/
theorem readCSVFileExec_transaction_groups_witness :
    (1 : Int) ≤ 2 ∧ (0 : Int) < 4 ∧
    readCSVFileExec "t".toList [["a".toList, "number".toList]] 2 4 fiveRows =
      Outcome.finished
        [Write.text "begin transaction;\n".toList,
         Write.insert [{ values := ["1".toList] }, { values := ["2".toList] }],
         Write.insert [{ values := ["3".toList] }, { values := ["4".toList] }],
         Write.text "commit transaction;\n".toList,
         Write.text "\nbegin transaction;".toList,
         Write.insert [{ values := ["5".toList] }],
         Write.text "\ncommit transaction;\n".toList] ∧
    (∃ w, readCSVFileExec "t".toList [["a".toList, "number".toList]] 2 4 fiveRows =
      Outcome.finished w) ∧
    ∃ full tail : List Group,
      [Write.text "begin transaction;\n".toList,
       Write.insert [{ values := ["1".toList] }, { values := ["2".toList] }],
       Write.insert [{ values := ["3".toList] }, { values := ["4".toList] }],
       Write.text "commit transaction;\n".toList,
       Write.text "\nbegin transaction;".toList,
       Write.insert [{ values := ["5".toList] }],
       Write.text "\ncommit transaction;\n".toList] = (full ++ tail).flatMap Group.writes :=
  ⟨by decide, by decide, by decide,
   (readCSVFileExec_transaction_groups "t".toList [["a".toList, "number".toList]] 2 4
      (by decide) (by decide) fiveRows).2.2 (by decide) (by decide),
   ((readCSVFileExec_transaction_groups "t".toList [["a".toList, "number".toList]] 2 4
      (by decide) (by decide) fiveRows).1 _ (by decide)).elim
     fun full h => h.elim fun tail h2 => ⟨full, tail, h2.1⟩⟩

end Gogetsql
